import Mathlib

/-!
Verification development for the SQL backend pass of the asn1rs model
compiler (`asn1rs-model/src/model/sql/mod.rs`).

Rust strings are embedded as lists of unicode scalar values (`List Char`),
with explicit UTF-8 byte accounting, because the definition-name mangler
mixes character indices with byte offsets.  Fallible operations (string
slicing that can panic at a non-character boundary) return `Option`.
The dependency walk `walk_graph` is not structurally recursive in the
source, so it is embedded with an explicit fuel parameter; `none` means
the fuel ran out (the source recursion does not terminate).
-/

namespace Asn1rsSql

/-- A Rust `String`, embedded as its list of unicode scalar values. -/
abbrev Str := List Char

/-- Rust `char::is_ascii_lowercase`. -/
def isAsciiLowercase (c : Char) : Bool :=
  97 ≤ c.toNat && c.toNat ≤ 122

/-- Rust `char::is_ascii_uppercase`. -/
def isAsciiUppercase (c : Char) : Bool :=
  65 ≤ c.toNat && c.toNat ≤ 90

/-- Rust `u8::is_ascii_digit` on a character. -/
def isAsciiDigit (c : Char) : Bool :=
  48 ≤ c.toNat && c.toNat ≤ 57

/-- Rust `char::to_ascii_lowercase`. -/
def asciiToLower (c : Char) : Char :=
  if isAsciiUppercase c then Char.ofNat (c.toNat + 32) else c

/-- Rust `char::to_ascii_uppercase`. -/
def asciiToUpper (c : Char) : Char :=
  if isAsciiLowercase c then Char.ofNat (c.toNat - 32) else c

/-- Rust `str::eq_ignore_ascii_case`. -/
def eqIgnoreAsciiCase (a b : Str) : Bool :=
  a.map asciiToLower == b.map asciiToLower

/-- ASCII whitespace recognizer used to model `str::trim` (the names fed to
it in this pass never carry non-ASCII whitespace). -/
def isWsChar (c : Char) : Bool :=
  c.toNat == 32 || c.toNat == 9 || c.toNat == 10 || c.toNat == 13

/-- Model of Rust `str::trim`. -/
def strTrim (s : Str) : Str :=
  ((s.dropWhile isWsChar).reverse.dropWhile isWsChar).reverse

/-- Number of bytes of the UTF-8 encoding of one scalar value. -/
def charUtf8Size (c : Char) : Nat :=
  if c.toNat < 128 then 1
  else if c.toNat < 2048 then 2
  else if c.toNat < 65536 then 3
  else 4

/-- Rust `str::len`: the length in UTF-8 bytes. -/
def bytesLen : Str → Nat
  | [] => 0
  | c :: r => charUtf8Size c + bytesLen r

/-- Model of the Rust slice `&name[k..]` for a byte offset `k`: returns
`none` exactly when the code would panic, i.e. when `k` is not on a
character boundary or past the end. -/
def byteDrop : Str → Nat → Option Str
  | s, 0 => some s
  | [], Nat.succ _ => none
  | c :: r, Nat.succ k =>
    if charUtf8Size c ≤ Nat.succ k then byteDrop r (Nat.succ k - charUtf8Size c)
    else none

/-- `FOREIGN_KEY_DEFAULT_COLUMN`: the reserved surrogate-key column name. -/
def FOREIGN_KEY_DEFAULT_COLUMN : Str := "id".data

/-- `TUPLE_LIST_ENTRY_PARENT_COLUMN`. -/
def TUPLE_LIST_ENTRY_PARENT_COLUMN : Str := "list".data

/-- `TUPLE_LIST_ENTRY_VALUE_COLUMN`. -/
def TUPLE_LIST_ENTRY_VALUE_COLUMN : Str := "value".data

/-- `TYPENAME_LENGTH_LIMIT_PSQL`: the 63-byte PostgreSQL identifier ceiling. -/
def TYPENAME_LENGTH_LIMIT_PSQL : Nat := 63

/-- Modelled from the spec: `RustCodeGenerator::rust_module_name` lives in
`asn1rs-model/src/gen/rust`, which is not part of the provided sources.
From the spec scenarios and the in-tree tests it converts a name to
snake_case: every character is lowercased, and an ASCII-uppercase character
following a lowercase character or digit gets an underscore inserted before
it (`DeadSince` becomes `dead_since`, `id` stays `id`). -/
def rustModuleNameGo : Option Char → Str → Str
  | _, [] => []
  | prev, c :: r =>
    let boundary := match prev with
      | some p => isAsciiUppercase c && (isAsciiLowercase p || isAsciiDigit p)
      | none => false
    if boundary then '_' :: asciiToLower c :: rustModuleNameGo (some c) r
    else asciiToLower c :: rustModuleNameGo (some c) r

/-- Modelled from the spec: see `rustModuleNameGo`. -/
def rustModuleName (s : Str) : Str := rustModuleNameGo none s

/-- Modelled from the spec: `RustCodeGenerator::rust_variant_name` lives in
`asn1rs-model/src/gen/rust`, which is not part of the provided sources.
From the in-tree tests it converts a snake_case name to CamelCase:
underscores are dropped and the following character is uppercased
(`list_of_primitive` becomes `ListOfPrimitive`). -/
def rustVariantNameGo : Bool → Str → Str
  | _, [] => []
  | capNext, c :: r =>
    if c = '_' then rustVariantNameGo true r
    else (if capNext then asciiToUpper c else c) :: rustVariantNameGo false r

/-- Modelled from the spec: see `rustVariantNameGo`. -/
def rustVariantName (s : Str) : Str := rustVariantNameGo true s

/-- `Model::<Sql>::sql_column_name`: the literal identifier (snake_cased)
unless it collides case-insensitively with the reserved surrogate-key
column name, in which case a trailing underscore is appended. -/
def sql_column_name (name : Str) : Str :=
  if eqIgnoreAsciiCase FOREIGN_KEY_DEFAULT_COLUMN (strTrim name) then
    rustModuleName name ++ ['_']
  else
    rustModuleName name

/-- The scan loop of `Model::<Sql>::sql_definition_name` for a name whose
byte length exceeds the ceiling.  `full` is the whole name (needed because
the source slices the original string), `rem` the not yet visited
suffix, `index` the character index of the head of `rem`, and `result` the
accumulator.  Returns `none` when the source would panic: the slice
`&name[index + 1..]` uses the character index as a byte offset, which can
fall inside a multi-byte character. -/
def mangleGo (full : Str) : Str → Nat → Str → Option Str
  | [], _, result => some result
  | c :: rest, index, result =>
    if isAsciiLowercase c then
      mangleGo full rest (index + 1) result
    else
      let result2 := result ++ [c]
      let remainig := bytesLen full - index - 1
      if remainig + bytesLen result2 ≤ TYPENAME_LENGTH_LIMIT_PSQL then
        match byteDrop full (index + 1) with
        | some sliced => some (result2 ++ sliced)
        | none => none
      else if TYPENAME_LENGTH_LIMIT_PSQL ≤ bytesLen result2 then
        some result2
      else
        mangleGo full rest (index + 1) result2

/-- `Model::<Sql>::sql_definition_name`: names at or under the identifier
ceiling (in bytes) pass through; longer names are shortened by dropping
leading runs of ASCII-lowercase characters (see `mangleGo`). -/
def sql_definition_name (name : Str) : Option Str :=
  if TYPENAME_LENGTH_LIMIT_PSQL < bytesLen name then
    mangleGo name name 0 []
  else
    some name

/-- Modelled from the spec: `Range` (in `asn1rs-model/src/model`, outside
the provided sources) carries an inclusive numeric range.  The embedding
uses unbounded integers; well-formedness per width is imposed where a claim
needs it. -/
structure Rng where
  min : Int
  max : Int
deriving DecidableEq

/-- Modelled from the spec: `RustType` (in `asn1rs-model/src/model/rust`,
outside the provided sources) is the closed set of structural field types.
Size bounds, charsets, tags and encoding orderings are carried by the
original type but never inspected by the SQL pass, so they are dropped
here. -/
inductive RustType where
  | bool
  | null
  | u8 (r : Rng)
  | i8 (r : Rng)
  | u16 (r : Rng)
  | i16 (r : Rng)
  | u32 (r : Rng)
  | i32 (r : Rng)
  | u64 (r : Rng)
  | i64 (r : Rng)
  | string
  | vecU8
  | bitVec
  | vec (inner : RustType)
  | option (inner : RustType)
  | default (inner : RustType)
  | complex (name : Str)
deriving DecidableEq

/-- Modelled from the spec: `RustType::is_vec` holds exactly for the
repeated/list type. -/
def RustType.is_vec : RustType → Bool
  | .vec _ => true
  | _ => false

/-- Modelled from the spec: `RustType::as_inner_type` strips list, optional
and defaulted wrappers down to the innermost type (the in-tree tests show a
`Vec<String>` list field producing a `TEXT` value column). -/
def RustType.as_inner_type : RustType → RustType
  | .vec inner => inner.as_inner_type
  | .option inner => inner.as_inner_type
  | .default inner => inner.as_inner_type
  | t => t

/-- Modelled from the spec: `RustType::no_option` strips one optional
wrapper. -/
def RustType.no_option : RustType → RustType
  | .option inner => inner
  | t => t

/-- `Action`: foreign-key referential action. -/
inductive Action where
  | cascade
  | restrict
deriving DecidableEq

/-- `SqlType`: the closed set of column types of the schema model. -/
inductive SqlType where
  | smallInt
  | integer
  | bigInt
  | serial
  | boolean
  | text
  | array (inner : SqlType)
  | notNull (inner : SqlType)
  | byteArray
  | nullByteArray
  | bitsReprByByteArrayAndBitsLen
  | references (table : Str) (column : Str) (onDelete : Option Action) (onUpdate : Option Action)
deriving DecidableEq

/-- `SqlType::as_nullable`: the type with a `NotNull` wrapper stripped. -/
def SqlType.as_nullable : SqlType → SqlType
  | .notNull inner => inner
  | t => t

/-- `SqlType::nullable`: strips one `NotNull` wrapper. -/
def SqlType.nullable : SqlType → SqlType
  | .notNull inner => inner
  | t => t

/-- `SqlType::not_null`: wraps in `NotNull`. -/
def SqlType.not_null (t : SqlType) : SqlType := .notNull t

/-- `impl ToSql for RustType` (`to_sql`): the type mapper.  Every arm of
the source match is wrapped `NotNull` except the early returns for `Null`,
`Option` and `Default`. -/
def RustType.to_sql : RustType → SqlType
  | .bool => .notNull .boolean
  | .null => SqlType.nullByteArray.nullable
  | .u8 _ => .notNull .smallInt
  | .i8 _ => .notNull .smallInt
  | .u16 r => if r.max ≤ 32767 then .notNull .smallInt else .notNull .integer
  | .i16 _ => .notNull .smallInt
  | .u32 r => if r.max ≤ 2147483647 then .notNull .integer else .notNull .bigInt
  | .i32 _ => .notNull .integer
  | .u64 _ => .notNull .bigInt
  | .i64 _ => .notNull .bigInt
  | .string => .notNull .text
  | .vecU8 => .notNull .byteArray
  | .bitVec => .notNull .bitsReprByByteArrayAndBitsLen
  | .vec inner => .notNull (.array inner.to_sql)
  | .option inner => inner.to_sql.nullable
  | .default inner => inner.to_sql
  | .complex name =>
    .notNull (.references name FOREIGN_KEY_DEFAULT_COLUMN (some .cascade) (some .cascade))

/-- `SqlType::to_rust`: the inverse direction of the type mapper.  Every
arm is wrapped in `Option` except the early returns for `NotNull` and
`NullByteArray`. -/
def SqlType.to_rust : SqlType → RustType
  | .smallInt => .option (.i16 ⟨0, 32767⟩)
  | .integer => .option (.i32 ⟨0, 2147483647⟩)
  | .bigInt => .option (.i64 ⟨0, 9223372036854775807⟩)
  | .serial => .option (.i32 ⟨0, 2147483647⟩)
  | .boolean => .option .bool
  | .text => .option .string
  | .array inner => .option (.vec inner.to_rust)
  | .notNull inner => inner.to_rust.no_option
  | .byteArray => .option .vecU8
  | .nullByteArray => .null
  | .bitsReprByByteArrayAndBitsLen => .option .bitVec
  | .references name _ _ _ => .option (.complex name)

/-- `Column` of the schema model. -/
structure Column where
  name : Str
  sql : SqlType
  primary_key : Bool
deriving DecidableEq

/-- `Constraint` of the schema model. -/
inductive Constraint where
  | combinedPrimaryKey (cols : List Str)
  | oneNotNull (cols : List Str)
deriving DecidableEq

/-- `Sql`: the schema-side definition variants. -/
inductive Sql where
  | table (columns : List Column) (constraints : List Constraint)
  | enum (variants : List Str)
  | index (tbl : Str) (cols : List Str)
  | abandonChildrenFunction (tbl : Str) (children : List (Str × Str × Str))
  | silentlyPreventAnyDelete (tbl : Str)
deriving DecidableEq

/-- `Definition<Sql>`: a named schema definition. -/
structure SqlDefinition where
  name : Str
  value : Sql
deriving DecidableEq

/-- Modelled from the spec: the input `Rust` definition variants
(`asn1rs-model/src/model/rust`, outside the provided sources).  A struct's
tag, extension marker and field ordering are ignored by the SQL pass and
dropped; a field and a data-enum variant are their fallback representation
`(name, type)`. -/
inductive Rust where
  | structDef (fields : List (Str × RustType))
  | enumDef (variants : List Str)
  | dataEnum (variants : List (Str × RustType))
  | tupleStruct (inner : RustType)
deriving DecidableEq

/-- `Model::<Sql>::index_def`: an index definition for one column, with a
mangled name `<table>_Index_<column>`. -/
def index_def (table column : Str) : Option SqlDefinition :=
  match sql_definition_name (table ++ "_Index_".data ++ column) with
  | none => none
  | some n => some ⟨n, .index table [column]⟩

/-- `Model::<Sql>::add_index_if_applicable`: emits an index definition
exactly when the mapped type (nullability stripped) is a foreign-key
reference. -/
def add_index_if_applicable (table column : Str) (rust : RustType) :
    Option (List SqlDefinition) :=
  match rust.to_sql.nullable with
  | .references _ _ _ _ =>
    match index_def table column with
    | none => none
    | some d => some [d]
  | _ => some []

/-- `Model::<Sql>::add_abandon_children`: pushes one
`AbandonChildrenFunction` definition named `DelChilds_<name>` (mangled). -/
def add_abandon_children (name : Str) (children : List (Str × Str × Str)) :
    Option (List SqlDefinition) :=
  match sql_definition_name ( "DelChilds_".data ++ name) with
  | none => none
  | some n => some [⟨n, .abandonChildrenFunction name children⟩]

/-- The per-field loop of
`Model::<Sql>::append_index_and_abandon_function`: collects the index
definitions (in field order) and the `(column, target_table,
target_column)` children of the foreign-key fields. -/
def indexAndAbandonGo (name : Str) :
    List (Str × RustType) → Option (List SqlDefinition × List (Str × Str × Str))
  | [] => some ([], [])
  | (fname, rust) :: r =>
    match add_index_if_applicable name (sql_column_name fname) rust with
    | none => none
    | some idx =>
      match indexAndAbandonGo name r with
      | none => none
      | some (defs, children) =>
        let extra := match rust.to_sql.nullable with
          | .references otherTable otherColumn _ _ =>
            [(sql_column_name fname, otherTable, otherColumn)]
          | _ => []
        some (idx ++ defs, extra ++ children)

/-- `Model::<Sql>::append_index_and_abandon_function`: per-field indexes
followed by one abandon-children function when at least one field is a
foreign key. -/
def append_index_and_abandon_function (name : Str)
    (fields : List (Str × RustType)) : Option (List SqlDefinition) :=
  match indexAndAbandonGo name fields with
  | none => none
  | some (defs, children) =>
    if children.isEmpty then some defs
    else
      match add_abandon_children name children with
      | none => none
      | some ab => some (defs ++ ab)

/-- `Model::<Sql>::add_list_table`: the join table for a repeated-value
field, its two indexes, and (only when the value column is itself a
foreign key) an abandon-children function recording the value column. -/
def add_list_table (name listEntryName : Str) (valueSqlType : SqlType) :
    Option (List SqlDefinition) :=
  let tbl : SqlDefinition :=
    ⟨listEntryName,
      .table
        [⟨TUPLE_LIST_ENTRY_PARENT_COLUMN,
          .notNull (.references name FOREIGN_KEY_DEFAULT_COLUMN (some .cascade) (some .cascade)),
          false⟩,
         ⟨TUPLE_LIST_ENTRY_VALUE_COLUMN, valueSqlType, false⟩]
        [.combinedPrimaryKey [TUPLE_LIST_ENTRY_PARENT_COLUMN, TUPLE_LIST_ENTRY_VALUE_COLUMN]]⟩
  match index_def listEntryName TUPLE_LIST_ENTRY_PARENT_COLUMN with
  | none => none
  | some i1 =>
    match index_def listEntryName TUPLE_LIST_ENTRY_VALUE_COLUMN with
    | none => none
    | some i2 =>
      let abOpt := match valueSqlType.nullable with
        | .references otherTable otherColumn _ _ =>
          add_abandon_children listEntryName
            [(TUPLE_LIST_ENTRY_VALUE_COLUMN, otherTable, otherColumn)]
        | _ => some []
      match abOpt with
      | none => none
      | some ab => some ([tbl, i1, i2] ++ ab)

/-- `Model::<Sql>::struct_list_entry_table_name`:
`<struct>_<CamelCasedField>`, mangled. -/
def struct_list_entry_table_name (structName fieldName : Str) : Option Str :=
  sql_definition_name (structName ++ ['_'] ++ rustVariantName fieldName)

/-- The per-field loop of `Model::<Sql>::rust_struct_to_sql_table`:
non-list fields become columns, list fields defer a join table. -/
def structFieldsGo (name : Str) :
    List (Str × RustType) → Option (List Column × List SqlDefinition)
  | [] => some ([], [])
  | (fname, t) :: r =>
    if t.is_vec then
      match struct_list_entry_table_name name fname with
      | none => none
      | some listEntryName =>
        match add_list_table name listEntryName t.as_inner_type.to_sql with
        | none => none
        | some listDefs =>
          match structFieldsGo name r with
          | none => none
          | some (cols, deferred) => some (cols, listDefs ++ deferred)
    else
      match structFieldsGo name r with
      | none => none
      | some (cols, deferred) =>
        some (⟨sql_column_name fname, t.to_sql, false⟩ :: cols, deferred)

/-- `Model::<Sql>::rust_struct_to_sql_table`: the main table (with the
surrogate key prepended), then the indexes and abandon function, then the
deferred join tables. -/
def rust_struct_to_sql_table (name : Str) (fields : List (Str × RustType)) :
    Option (List SqlDefinition) :=
  match structFieldsGo name fields with
  | none => none
  | some (cols, deferred) =>
    match append_index_and_abandon_function name fields with
    | none => none
    | some aux =>
      some (⟨name, .table (⟨FOREIGN_KEY_DEFAULT_COLUMN, .serial, true⟩ :: cols) []⟩ ::
        (aux ++ deferred))

/-- `Model::<Sql>::rust_data_enum_to_sql_table`: one table whose surrogate
key is omitted when some variant is named like the reserved key
(case-insensitively), one nullable column per variant, and a `OneNotNull`
constraint listing the variants' module names. -/
def rust_data_enum_to_sql_table (name : Str)
    (variants : List (Str × RustType)) : Option (List SqlDefinition) :=
  let idCols : List Column :=
    if variants.any (fun v => eqIgnoreAsciiCase FOREIGN_KEY_DEFAULT_COLUMN v.1) then []
    else [⟨FOREIGN_KEY_DEFAULT_COLUMN, .serial, true⟩]
  let varCols := variants.map
    (fun v => (⟨sql_column_name v.1, v.2.to_sql.nullable, false⟩ : Column))
  match append_index_and_abandon_function name variants with
  | none => none
  | some aux =>
    some (⟨name, .table (idCols ++ varCols)
        [.oneNotNull (variants.map (fun v => rustModuleName v.1))]⟩ :: aux)

/-- `Model::<Sql>::add_silently_prevent_any_delete`. -/
def add_silently_prevent_any_delete (name : Str) : Option (List SqlDefinition) :=
  match sql_definition_name ( "SilentlyPreventAnyDeleteOn".data ++ name) with
  | none => none
  | some n => some [⟨n, .silentlyPreventAnyDelete name⟩]

/-- `Model::<Sql>::rust_enum_to_sql_enum`: a schema enumeration plus its
delete guard. -/
def rust_enum_to_sql_enum (name : Str) (variants : List Str) :
    Option (List SqlDefinition) :=
  match add_silently_prevent_any_delete name with
  | none => none
  | some guard => some (⟨name, .enum variants⟩ :: guard)

/-- `Model::<Sql>::rust_tuple_struct_to_sql_table`: a surrogate-key-only
outer table plus a `<name>ListEntry` join table for the wrapped value. -/
def rust_tuple_struct_to_sql_table (name : Str) (inner : RustType) :
    Option (List SqlDefinition) :=
  match sql_definition_name (name ++ "ListEntry".data) with
  | none => none
  | some listEntryName =>
    match add_list_table name listEntryName inner.as_inner_type.to_sql with
    | none => none
    | some listDefs =>
      some (⟨name, .table [⟨FOREIGN_KEY_DEFAULT_COLUMN, .serial, true⟩] []⟩ :: listDefs)

/-- `Model::<Sql>::definition_to_sql`: dispatch per structural variant. -/
def definition_to_sql (name : Str) : Rust → Option (List SqlDefinition)
  | .structDef fields => rust_struct_to_sql_table name fields
  | .enumDef variants => rust_enum_to_sql_enum name variants
  | .dataEnum variants => rust_data_enum_to_sql_table name variants
  | .tupleStruct inner => rust_tuple_struct_to_sql_table name inner

/-- The synthesis stage of `Model::<Sql>::convert_rust_to_sql`: every input
definition's name is mangled and its schema definitions are appended in
order.  This is everything before `fix_table_declaration_occurrence`. -/
def synthAll : List (Str × Rust) → Option (List SqlDefinition)
  | [] => some []
  | (n, r) :: rest =>
    match sql_definition_name n with
    | none => none
    | some n2 =>
      match definition_to_sql n2 r with
      | none => none
      | some d =>
        match synthAll rest with
        | none => none
        | some tail => some (d ++ tail)

/-- The depth map of `fix_table_declaration_occurrence`, embedded as an
association list keyed by definition name (the source `HashMap` is only
ever read with `get` and written with `insert`, so its iteration order is
irrelevant). -/
abbrev DepthMap := List (Str × Nat)

/-- `HashMap::get`. -/
def mget : DepthMap → Str → Option Nat
  | [], _ => none
  | (k, v) :: r, key => if k = key then some v else mget r key

/-- `HashMap::insert`. -/
def minsert : DepthMap → Str → Nat → DepthMap
  | [], k, v => [(k, v)]
  | (k0, v0) :: r, k, v => if k0 = k then (k0, v) :: r else (k0, v0) :: minsert r k v

/-- `depth.get(key).unwrap_or(0)`. -/
def mgetD (m : DepthMap) (k : Str) : Nat := (mget m k).getD 0

/-- The reference target of a column type, after stripping nullability
(`SqlType::as_nullable`). -/
def sqlRefTarget (t : SqlType) : Option Str :=
  match t.as_nullable with
  | .references other _ _ _ => some other
  | _ => none

/-- The names walked from one definition by `walk_graph`: every foreign-key
column target of a table, or the affected table of an index, abandon
function or delete guard. -/
def defChildren (d : SqlDefinition) : List Str :=
  match d.value with
  | .table columns _ => columns.filterMap (fun c => sqlRefTarget c.sql)
  | .enum _ => []
  | .index tbl _ => [tbl]
  | .abandonChildrenFunction tbl _ => [tbl]
  | .silentlyPreventAnyDelete tbl => [tbl]

/-- The index of the first definition with the given name (`walk_from_name`
scans `definitions` front to back); equals the length when absent. -/
def findDefIdx : List SqlDefinition → Str → Nat
  | [], _ => 0
  | d :: r, t => if d.name = t then 0 else findDefIdx r t + 1

/-- A fold over child names threading an optional depth map. -/
def optFold (f : DepthMap → Str → Option DepthMap) :
    List Str → DepthMap → Option DepthMap
  | [], m => some m
  | t :: ts, m =>
    match f m t with
    | none => none
    | some m2 => optFold f ts m2

/-- The placeholder definition used for an out-of-bounds index; `walk` is
only ever applied to valid indices (the source would panic otherwise). -/
def dummyDef : SqlDefinition := ⟨[], .enum []⟩

/-- The depth-update block at the top of `walk_graph`: raise the stored
depth of the current name to the incoming depth if larger (inserting it
when absent), and return the updated map together with the depth the
children are walked from. -/
def updateDepth (m : DepthMap) (nm : Str) (d : Nat) : DepthMap × Nat :=
  match mget m nm with
  | some d0 => if d0 < d then (minsert m nm d, d) else (m, d0)
  | none => (minsert m nm d, d)

/-- `Model::<Sql>::walk_graph`, with an explicit fuel parameter: the source
recursion has no visited set and therefore no structural termination
measure; `none` means the fuel ran out, and the source diverges exactly
when no finite fuel suffices.  The current definition's stored depth is
raised to the incoming depth if larger, and every child (the first
definition matching each referenced name, when one exists) is walked with
the updated depth plus one. -/
def walk (defs : List SqlDefinition) : Nat → Nat → DepthMap → Nat → Option DepthMap
  | 0, _, _, _ => none
  | Nat.succ n, i, m, d =>
    let cur := defs.getD i dummyDef
    let nm := cur.name
    let p : DepthMap × Nat := updateDepth m nm d
    optFold
      (fun acc t =>
        let j := findDefIdx defs t
        if j < defs.length then walk defs n j acc (p.2 + 1) else some acc)
      (defChildren cur) p.1

/-- The loop of `fix_table_declaration_occurrence` that walks every
definition index as a root with depth 0. -/
def walkRoots (defs : List SqlDefinition) (fuel : Nat) :
    List Nat → DepthMap → Option DepthMap
  | [], m => some m
  | i :: rest, m =>
    match walk defs fuel i m 0 with
    | none => none
    | some m2 => walkRoots defs fuel rest m2

/-- The depth computation of `fix_table_declaration_occurrence`. -/
def computeDepths (fuel : Nat) (defs : List SqlDefinition) : Option DepthMap :=
  walkRoots defs fuel (List.range defs.length) []

/-- `usize::MAX`. -/
def USIZE_MAX : Nat := 18446744073709551615

/-- The sort key `usize::MAX - depth.get(key.name()).unwrap_or(0)`. -/
def sortKey (m : DepthMap) (d : SqlDefinition) : Nat :=
  USIZE_MAX - mgetD m d.name

/-- The stable ascending sort by `sortKey` (Rust `sort_by_key`; Mathlib's
insertion sort is stable in the same sense). -/
def sortDefs (m : DepthMap) (defs : List SqlDefinition) : List SqlDefinition :=
  List.insertionSort (fun a b => sortKey m a ≤ sortKey m b) defs

/-- `Model::<Sql>::fix_table_declaration_occurrence`. -/
def fix_table_declaration_occurrence (fuel : Nat) (defs : List SqlDefinition) :
    Option (List SqlDefinition) :=
  (computeDepths fuel defs).map (fun m => sortDefs m defs)

/-- `Model::<Sql>::convert_rust_to_sql`: synthesis of every definition in
order, then the dependency-ordering pass. -/
def convert_rust_to_sql (fuel : Nat) (model : List (Str × Rust)) :
    Option (List SqlDefinition) :=
  (synthAll model).bind (fix_table_declaration_occurrence fuel)

/-- The name of the definition at index `i`. -/
def nameAt (defs : List SqlDefinition) (i : Nat) : Str :=
  (defs.getD i dummyDef).name

/-- The definition at index `i` is a table holding a foreign-key column
(after stripping nullability) that references the name `t`. -/
def holdsFkInto (d : SqlDefinition) (t : Str) : Prop :=
  match d.value with
  | .table cols _ => ∃ c ∈ cols, sqlRefTarget c.sql = some t
  | _ => False

instance (d : SqlDefinition) (t : Str) : Decidable (holdsFkInto d t) := by
  unfold holdsFkInto
  obtain ⟨n, v⟩ := d
  cases v <;> dsimp <;> infer_instance

/-- Pointwise monotonicity of depth maps under `unwrap_or(0)` reads. -/
def depthMono (m m2 : DepthMap) : Prop := ∀ k : Str, mgetD m k ≤ mgetD m2 k

/-- The edge property at index `i` in map `m`: every referenced name that
resolves to a definition is at least one deeper than `i`'s own name. -/
def satAt (defs : List SqlDefinition) (m : DepthMap) (i : Nat) : Prop :=
  ∀ t ∈ defChildren (defs.getD i dummyDef),
    findDefIdx defs t < defs.length →
    mgetD m (nameAt defs i) + 1 ≤ mgetD m t

/-- Every definition index whose stored depth grew between `m` and `m2`
has its edge property restored in `m2`. -/
def raisedSat (defs : List SqlDefinition) (m m2 : DepthMap) : Prop :=
  ∀ s, s < defs.length → mgetD m (nameAt defs s) < mgetD m2 (nameAt defs s) →
    satAt defs m2 s

/-- The induction bundle for one `walk` call: monotonicity, the
raised-implies-satisfied property, the current name reaching at least the
incoming depth, and the current index's edge property. -/
def WalkSpec (defs : List SqlDefinition) (n : Nat) : Prop :=
  ∀ (i : Nat) (m : DepthMap) (d : Nat) (m2 : DepthMap),
    i < defs.length → walk defs n i m d = some m2 →
    depthMono m m2 ∧ raisedSat defs m m2 ∧
      max d (mgetD m (nameAt defs i)) ≤ mgetD m2 (nameAt defs i) ∧
      satAt defs m2 i

/-! Predicates and concrete inputs used to state the claims. -/

/-- The declared inclusive range of an integer field type. -/
def rangeOf : RustType → Option Rng
  | .u8 r => some r
  | .i8 r => some r
  | .u16 r => some r
  | .i16 r => some r
  | .u32 r => some r
  | .i32 r => some r
  | .u64 r => some r
  | .i64 r => some r
  | _ => none

/-- Inclusive range containment: `outer` contains `inner`. -/
def rngContains (outer inner : Rng) : Prop :=
  outer.min ≤ inner.min ∧ inner.max ≤ outer.max

instance (outer inner : Rng) : Decidable (rngContains outer inner) := by
  unfold rngContains; infer_instance

/-- Well-formedness of an integer field type: the declared range lies
within the machine width (enforced by the Rust types `Range<u8>`,
`Range<i8>`, ... of the source). -/
def wfIntRange : RustType → Prop
  | .u8 r => 0 ≤ r.min ∧ r.max ≤ 255
  | .i8 r => -128 ≤ r.min ∧ r.max ≤ 127
  | .u16 r => 0 ≤ r.min ∧ r.max ≤ 65535
  | .i16 r => -32768 ≤ r.min ∧ r.max ≤ 32767
  | .u32 r => 0 ≤ r.min ∧ r.max ≤ 4294967295
  | .i32 r => -2147483648 ≤ r.min ∧ r.max ≤ 2147483647
  | .u64 r => 0 ≤ r.min ∧ r.max ≤ 18446744073709551615
  | .i64 r => -9223372036854775808 ≤ r.min ∧ r.max ≤ 9223372036854775807
  | _ => True

instance (t : RustType) : Decidable (wfIntRange t) := by
  unfold wfIntRange; cases t <;> infer_instance

/-- Head test for the `NotNull` wrapper. -/
def isNotNull : SqlType → Bool
  | .notNull _ => true
  | _ => false

/-- Head test for the optional wrapper. -/
def RustType.isOptionT : RustType → Bool
  | .option _ => true
  | _ => false

/-- Head test for the defaulted wrapper. -/
def RustType.isDefaultT : RustType → Bool
  | .default _ => true
  | _ => false

/-- Number of primary-key columns of a column list. -/
def pkCount (cols : List Column) : Nat := cols.countP (fun c => c.primary_key)

/-- The synthetic auto-incrementing surrogate primary-key column. -/
def idSerialCol : Column := ⟨FOREIGN_KEY_DEFAULT_COLUMN, .serial, true⟩

/-- Head test for table definitions. -/
def isTableDef (d : SqlDefinition) : Bool :=
  match d.value with
  | .table _ _ => true
  | _ => false

/-- The children recorded by an `AbandonChildrenFunction` definition for
the given table, when `d` is one. -/
def abandonEntries (tbl : Str) (d : SqlDefinition) : Option (List (Str × Str × Str)) :=
  match d.value with
  | .abandonChildrenFunction t ch => if t = tbl then some ch else none
  | _ => none

/-- The `(column, target_table, target_column)` triples of the foreign-key
fields of a field list, in field order. -/
def fkChildrenOf (fields : List (Str × RustType)) : List (Str × Str × Str) :=
  fields.filterMap (fun f =>
    match f.2.to_sql.nullable with
    | .references otherTable otherColumn _ _ =>
      some (sql_column_name f.1, otherTable, otherColumn)
    | _ => none)

/-- The variant column of a data-enum variant. -/
def varColOf (v : Str × RustType) : Column :=
  ⟨sql_column_name v.1, v.2.to_sql.nullable, false⟩

/-- The `list` parent column of a join table owned by `owner`. -/
def parentColOf (owner : Str) : Column :=
  ⟨TUPLE_LIST_ENTRY_PARENT_COLUMN,
   .notNull (.references owner FOREIGN_KEY_DEFAULT_COLUMN (some .cascade) (some .cascade)),
   false⟩

/-- Every character is ASCII. -/
def allAscii (s : Str) : Prop := ∀ c ∈ s, c.toNat < 128

instance (s : Str) : Decidable (allAscii s) := by
  unfold allAscii; infer_instance

/-- Every name of an input definition's payload that feeds the name
mangler is ASCII: struct field names and data-enum variant names (both can
end up inside mangled index, join-table and function names); plain-enum
variant labels and referenced type names are never mangled. -/
def rustNamesAscii : Rust → Prop
  | .structDef fields => ∀ f ∈ fields, allAscii f.1
  | .enumDef _ => True
  | .dataEnum variants => ∀ v ∈ variants, allAscii v.1
  | .tupleStruct _ => True

instance (r : Rust) : Decidable (rustNamesAscii r) := by
  unfold rustNamesAscii; cases r <;> infer_instance

/-- A self-referencing input model: a struct whose field references its own
definition. -/
def cyclicModel : List (Str × Rust) :=
  [( "A".data, .structDef [( "next".data, .complex ( "A".data))])]

/-- A two-definition input model: a struct `Person` holding a foreign key
into the plain enum `City`. -/
def personCityModel : List (Str × Rust) :=
  [( "Person".data,
     .structDef [( "name".data, .string), ( "birth".data, .complex ( "City".data))]),
   ( "City".data, .enumDef [ "Esslingen".data, "Stuttgart".data])]

/-- The schema definitions synthesized from `personCityModel` (before the
ordering pass). -/
def personCityDefs : List SqlDefinition :=
  [⟨ "Person".data,
     .table
       [idSerialCol,
        ⟨ "name".data, .notNull .text, false⟩,
        ⟨ "birth".data,
         .notNull (.references ( "City".data) ( "id".data) (some .cascade) (some .cascade)),
         false⟩]
       []⟩,
   ⟨ "Person_Index_birth".data, .index ( "Person".data) [ "birth".data]⟩,
   ⟨ "DelChilds_Person".data,
     .abandonChildrenFunction ( "Person".data) [( "birth".data, "City".data, "id".data)]⟩,
   ⟨ "City".data, .enum [ "Esslingen".data, "Stuttgart".data]⟩,
   ⟨ "SilentlyPreventAnyDeleteOnCity".data, .silentlyPreventAnyDelete ( "City".data)⟩]

/-- The depth map computed for `personCityDefs`. -/
def personCityDepths : DepthMap :=
  [( "Person".data, 1), ( "City".data, 2), ( "Person_Index_birth".data, 0),
   ( "DelChilds_Person".data, 0), ( "SilentlyPreventAnyDeleteOnCity".data, 0)]

/-- A definition name of 66 UTF-8 bytes whose first non-lowercase
character is multi-byte: sixty `a`s, one `Ä`, four `B`s. -/
def nonAsciiLongName : Str := List.replicate 60 'a' ++ 'Ä' :: "BBBB".data

/-- An input model carrying `nonAsciiLongName` as a definition name. -/
def nonAsciiModel : List (Str × Rust) := [(nonAsciiLongName, .structDef [])]

/-- The schema definitions synthesized from `cyclicModel` (before the
ordering pass). -/
def cyclicDefs : List SqlDefinition :=
  [⟨ "A".data,
     .table
       [⟨ "id".data, .serial, true⟩,
        ⟨ "next".data,
         .notNull (.references ( "A".data) ( "id".data) (some .cascade) (some .cascade)),
         false⟩]
       []⟩,
   ⟨ "A_Index_next".data, .index ( "A".data) [ "next".data]⟩,
   ⟨ "DelChilds_A".data,
     .abandonChildrenFunction ( "A".data) [( "next".data, "A".data, "id".data)]⟩]

/-! Theorems. -/

theorem mangleGo_all_lower (full : Str) :
    ∀ (rem : Str) (index : Nat) (result : Str),
      (∀ c ∈ rem, isAsciiLowercase c = true) →
      mangleGo full rem index result = some result := by
  intro rem
  induction rem with
  | nil => intro index result _; rfl
  | cons c rest ih =>
    intro index result h
    have hc : isAsciiLowercase c = true := h c (List.mem_cons_self c rest)
    have hrest : ∀ x ∈ rest, isAsciiLowercase x = true := fun x hx =>
      h x (List.mem_cons_of_mem c hx)
    simp only [mangleGo, hc, if_true]
    exact ih (index + 1) result hrest

/-- C10: a definition name longer than the byte ceiling consisting solely
of ASCII-lowercase characters is mangled to the empty string: the scan
drops every character and the loop exhausts with an empty accumulator. -/
theorem c10_lowercase_empty (name : Str)
    (hlong : TYPENAME_LENGTH_LIMIT_PSQL < bytesLen name)
    (hlower : ∀ c ∈ name, isAsciiLowercase c = true) :
    sql_definition_name name = some [] := by
  unfold sql_definition_name
  rw [if_pos hlong]
  exact mangleGo_all_lower name name 0 [] hlower

theorem c10_lowercase_empty_witness :
    TYPENAME_LENGTH_LIMIT_PSQL < bytesLen (List.replicate 70 'a') ∧
      sql_definition_name (List.replicate 70 'a') = some [] :=
  ⟨by decide, c10_lowercase_empty (List.replicate 70 'a') (by decide) (by decide)⟩

/-- C3 (amended): for every integer field type whose well-formed declared
range lies within `[0, i64::MAX]`, mapping with the type mapper and back
yields a field type whose inclusive range contains the declared one.  The
restriction is forced: the reverse mapper only produces ranges of the form
`[0, iN::MAX]`, so a negative declared lower bound, or a `u64` upper bound
above `i64::MAX`, is narrowed (see the counterexample). -/
theorem c3_roundtrip_contains (t : RustType) (r : Rng)
    (hr : rangeOf t = some r) (hwf : wfIntRange t)
    (hlo : 0 ≤ r.min) (hhi : r.max ≤ 9223372036854775807) :
    ∃ r2, rangeOf (t.to_sql.to_rust) = some r2 ∧ rngContains r2 r := by
  cases t with
  | u8 rr =>
    obtain rfl : rr = r := by injection hr
    refine ⟨⟨0, 32767⟩, rfl, hlo, ?_⟩
    show rr.max ≤ (32767 : Int)
    obtain ⟨_, h2⟩ := hwf; omega
  | i8 rr =>
    obtain rfl : rr = r := by injection hr
    refine ⟨⟨0, 32767⟩, rfl, hlo, ?_⟩
    show rr.max ≤ (32767 : Int)
    obtain ⟨_, h2⟩ := hwf; omega
  | u16 rr =>
    obtain rfl : rr = r := by injection hr
    obtain ⟨h1, h2⟩ := hwf
    by_cases h : rr.max ≤ (32767 : Int)
    · refine ⟨⟨0, 32767⟩, ?_, hlo, h⟩
      simp [RustType.to_sql, h, SqlType.to_rust, RustType.no_option, rangeOf]
    · refine ⟨⟨0, 2147483647⟩, ?_, hlo, ?_⟩
      · simp [RustType.to_sql, h, SqlType.to_rust, RustType.no_option, rangeOf]
      · show rr.max ≤ (2147483647 : Int); omega
  | i16 rr =>
    obtain rfl : rr = r := by injection hr
    refine ⟨⟨0, 32767⟩, rfl, hlo, ?_⟩
    show rr.max ≤ (32767 : Int)
    obtain ⟨_, h2⟩ := hwf; omega
  | u32 rr =>
    obtain rfl : rr = r := by injection hr
    obtain ⟨h1, h2⟩ := hwf
    by_cases h : rr.max ≤ (2147483647 : Int)
    · refine ⟨⟨0, 2147483647⟩, ?_, hlo, h⟩
      simp [RustType.to_sql, h, SqlType.to_rust, RustType.no_option, rangeOf]
    · refine ⟨⟨0, 9223372036854775807⟩, ?_, hlo, ?_⟩
      · simp [RustType.to_sql, h, SqlType.to_rust, RustType.no_option, rangeOf]
      · show rr.max ≤ (9223372036854775807 : Int); omega
  | i32 rr =>
    obtain rfl : rr = r := by injection hr
    refine ⟨⟨0, 2147483647⟩, rfl, hlo, ?_⟩
    show rr.max ≤ (2147483647 : Int)
    obtain ⟨_, h2⟩ := hwf; omega
  | u64 rr =>
    obtain rfl : rr = r := by injection hr
    exact ⟨⟨0, 9223372036854775807⟩, rfl, hlo, hhi⟩
  | i64 rr =>
    obtain rfl : rr = r := by injection hr
    exact ⟨⟨0, 9223372036854775807⟩, rfl, hlo, hhi⟩
  | bool => exact absurd hr (by simp [rangeOf])
  | null => exact absurd hr (by simp [rangeOf])
  | string => exact absurd hr (by simp [rangeOf])
  | vecU8 => exact absurd hr (by simp [rangeOf])
  | bitVec => exact absurd hr (by simp [rangeOf])
  | vec inner => exact absurd hr (by simp [rangeOf])
  | option inner => exact absurd hr (by simp [rangeOf])
  | default inner => exact absurd hr (by simp [rangeOf])
  | complex nm => exact absurd hr (by simp [rangeOf])

theorem c3_roundtrip_contains_witness :
    rangeOf (RustType.u8 ⟨0, 255⟩) = some ⟨0, 255⟩ ∧
      wfIntRange (RustType.u8 ⟨0, 255⟩) ∧
      (0 : Int) ≤ 0 ∧ (255 : Int) ≤ 9223372036854775807 ∧
      ∃ r2, rangeOf ((RustType.u8 ⟨0, 255⟩).to_sql.to_rust) = some r2 ∧
        rngContains r2 ⟨0, 255⟩ :=
  ⟨by decide, by decide, by decide, by decide,
   c3_roundtrip_contains (RustType.u8 ⟨0, 255⟩) ⟨0, 255⟩ (by decide) (by decide)
     (by decide) (by decide)⟩

/-- C3 counterexample: a well-formed `i8` range with a negative lower
bound round-trips to `[0, 32767]`, which does not contain it; a
well-formed `u64` range reaching `u64::MAX` round-trips to
`[0, i64::MAX]`, which does not contain it either. -/
theorem c3_narrowing_counterexample :
    wfIntRange (RustType.i8 ⟨-1, 127⟩) ∧
      rangeOf ((RustType.i8 ⟨-1, 127⟩).to_sql.to_rust) = some ⟨0, 32767⟩ ∧
      ¬ rngContains ⟨0, 32767⟩ ⟨-1, 127⟩ ∧
      wfIntRange (RustType.u64 ⟨0, 18446744073709551615⟩) ∧
      rangeOf ((RustType.u64 ⟨0, 18446744073709551615⟩).to_sql.to_rust) =
        some ⟨0, 9223372036854775807⟩ ∧
      ¬ rngContains ⟨0, 9223372036854775807⟩ ⟨0, 18446744073709551615⟩ := by
  refine ⟨by decide, by decide, ?_, by decide, by decide, ?_⟩ <;> decide

theorem nullable_of_isNotNull_false (t : SqlType) (h : isNotNull t = false) :
    t.nullable = t := by
  cases t <;> simp_all [isNotNull, SqlType.nullable]

theorem toSql_nullable_isNotNull_false (t : RustType) :
    isNotNull t.to_sql.nullable = false := by
  induction t with
  | u16 r =>
    by_cases h : r.max ≤ (32767 : Int) <;>
      simp [RustType.to_sql, h, SqlType.nullable, isNotNull]
  | u32 r =>
    by_cases h : r.max ≤ (2147483647 : Int) <;>
      simp [RustType.to_sql, h, SqlType.nullable, isNotNull]
  | option inner ih =>
    have heq : (RustType.option inner).to_sql = inner.to_sql.nullable := rfl
    rw [heq, nullable_of_isNotNull_false _ ih]
    exact ih
  | default inner ih => exact ih
  | _ => simp [RustType.to_sql, SqlType.nullable, isNotNull]

/-- C7 (amended): mapping an optional field type yields a column type
without the not-null wrapper, and mapping any non-optional, non-defaulted
field type other than `Null` yields a not-null-wrapped column type.  The
`Null` exception is forced: the mapper returns a bare (nullable)
`NullByteArray` for it (see the counterexample). -/
theorem c7_nullability :
    (∀ t : RustType, isNotNull (RustType.option t).to_sql = false) ∧
      (∀ t : RustType, t.isOptionT = false → t.isDefaultT = false →
        t ≠ RustType.null → isNotNull t.to_sql = true) := by
  constructor
  · intro t
    have heq : (RustType.option t).to_sql = t.to_sql.nullable := rfl
    rw [heq]
    exact toSql_nullable_isNotNull_false t
  · intro t hopt hdef hnull
    cases t with
    | u16 r => by_cases h : r.max ≤ (32767 : Int) <;> simp [RustType.to_sql, h, isNotNull]
    | u32 r => by_cases h : r.max ≤ (2147483647 : Int) <;> simp [RustType.to_sql, h, isNotNull]
    | option inner => simp [RustType.isOptionT] at hopt
    | default inner => simp [RustType.isDefaultT] at hdef
    | null => exact absurd rfl hnull
    | _ => simp [RustType.to_sql, isNotNull]

theorem c7_nullability_witness :
    isNotNull (RustType.option RustType.bool).to_sql = false ∧
      RustType.bool.isOptionT = false ∧ RustType.bool.isDefaultT = false ∧
      RustType.bool ≠ RustType.null ∧ isNotNull RustType.bool.to_sql = true :=
  ⟨c7_nullability.1 RustType.bool, by decide, by decide, by decide,
   c7_nullability.2 RustType.bool (by decide) (by decide) (by decide)⟩

/-- C7 counterexample: `RustType::Null` is neither optional nor defaulted,
yet its mapped column type is the bare, nullable `NullByteArray` — not a
not-null-wrapped type as the claim states. -/
theorem c7_null_counterexample :
    RustType.null.isOptionT = false ∧ RustType.null.isDefaultT = false ∧
      RustType.null.to_sql = SqlType.nullByteArray ∧
      isNotNull RustType.null.to_sql = false := by
  decide

theorem walk_cyclic_none : ∀ (n : Nat) (m : DepthMap) (d : Nat),
    walk cyclicDefs n 0 m d = none := by
  intro n
  induction n with
  | zero => intro m d; rfl
  | succ n ih =>
    intro m d
    have hch : defChildren (List.getD cyclicDefs 0 dummyDef) = [ "A".data] := by decide
    have hidx : findDefIdx cyclicDefs ( "A".data) = 0 := by decide
    have hlen : cyclicDefs.length = 3 := by decide
    simp only [walk, hch, hidx, hlen, optFold]
    rw [if_pos (by norm_num)]
    rw [ih]

/-- C2: the conversion pass does not terminate on a model with a true
reference cycle.  For the single-definition model whose struct holds a
foreign key into itself, `walk_graph` revisits the definition with an
ever-growing depth and no fuel bound suffices: the embedded conversion
returns `none` for every fuel, i.e. the source recursion diverges (a stack
overflow in Rust), while synthesis itself succeeds. -/
theorem c2_cycle_divergence :
    (∀ fuel : Nat, convert_rust_to_sql fuel cyclicModel = none) ∧
      synthAll cyclicModel = some cyclicDefs := by
  have hsyn : synthAll cyclicModel = some cyclicDefs := by decide
  refine ⟨?_, hsyn⟩
  intro fuel
  have hrange : List.range cyclicDefs.length = [0, 1, 2] := by decide
  simp only [convert_rust_to_sql, hsyn, Option.bind, fix_table_declaration_occurrence,
    computeDepths, hrange]
  simp only [walkRoots, walk_cyclic_none]
  rfl

theorem structFieldsGo_pk_false (name : Str) :
    ∀ (fields : List (Str × RustType)) (p : List Column × List SqlDefinition),
      structFieldsGo name fields = some p → ∀ c ∈ p.1, c.primary_key = false := by
  intro fields
  induction fields with
  | nil =>
    intro p hp c hc
    simp only [structFieldsGo] at hp
    cases hp
    simp at hc
  | cons f rest ih =>
    intro p hp c hc
    obtain ⟨fname, t⟩ := f
    by_cases hv : t.is_vec
    · cases hlen : struct_list_entry_table_name name fname with
      | none => simp [structFieldsGo, hv, hlen] at hp
      | some len =>
        cases hlist : add_list_table name len t.as_inner_type.to_sql with
        | none => simp [structFieldsGo, hv, hlen, hlist] at hp
        | some listDefs =>
          cases hrest : structFieldsGo name rest with
          | none => simp [structFieldsGo, hv, hlen, hlist, hrest] at hp
          | some q =>
            obtain ⟨cols, deferred⟩ := q
            simp only [structFieldsGo, hv, if_true, hlen, hlist, hrest,
              Option.some.injEq] at hp
            subst hp
            exact ih ⟨cols, deferred⟩ hrest c hc
    · cases hrest : structFieldsGo name rest with
      | none => simp [structFieldsGo, hv, hrest] at hp
      | some q =>
        obtain ⟨cols, deferred⟩ := q
        simp only [structFieldsGo, hv, if_false, Bool.false_eq_true, hrest,
          Option.some.injEq] at hp
        subst hp
        simp only [List.mem_cons] at hc
        rcases hc with hc | hc
        · subst hc; rfl
        · exact ih ⟨cols, deferred⟩ hrest c hc

theorem add_index_if_applicable_values (table column : Str) (rust : RustType)
    (l : List SqlDefinition) (h : add_index_if_applicable table column rust = some l) :
    ∀ d ∈ l, ∃ tb cl, d.value = Sql.index tb cl := by
  unfold add_index_if_applicable at h
  cases hsql : rust.to_sql.nullable <;> rw [hsql] at h
  case references ot oc od ou =>
    cases hidx : index_def table column with
    | none => rw [hidx] at h; cases h
    | some d0 =>
      rw [hidx] at h
      obtain rfl : [d0] = l := by injection h
      intro d hd
      obtain rfl : d0 = d := by
        rcases List.mem_singleton.mp hd with h2
        exact h2.symm
      unfold index_def at hidx
      cases hsdn : sql_definition_name (table ++ "_Index_".data ++ column) with
      | none => rw [hsdn] at hidx; cases hidx
      | some n =>
        rw [hsdn] at hidx
        obtain rfl : (⟨n, .index table [column]⟩ : SqlDefinition) = d0 := by injection hidx
        exact ⟨table, [column], rfl⟩
  all_goals
    obtain rfl : ([] : List SqlDefinition) = l := by injection h
  all_goals simp

theorem fkChildrenOf_cons (f : Str × RustType) (r : List (Str × RustType)) :
    fkChildrenOf (f :: r) =
      (match f.2.to_sql.nullable with
        | .references ot oc _ _ => [(sql_column_name f.1, ot, oc)]
        | _ => []) ++ fkChildrenOf r := by
  unfold fkChildrenOf
  rw [List.filterMap_cons]
  cases h : f.2.to_sql.nullable <;> simp [h]

theorem indexAndAbandonGo_spec (name : Str) :
    ∀ (fields : List (Str × RustType)) (p : List SqlDefinition × List (Str × Str × Str)),
      indexAndAbandonGo name fields = some p →
      p.2 = fkChildrenOf fields ∧ ∀ d ∈ p.1, ∃ tb cl, d.value = Sql.index tb cl := by
  intro fields
  induction fields with
  | nil =>
    intro p hp
    obtain rfl : (([], []) : List SqlDefinition × List (Str × Str × Str)) = p := by
      injection hp
    exact ⟨rfl, by simp⟩
  | cons f rest ih =>
    intro p hp
    obtain ⟨fname, rust⟩ := f
    cases hidx : add_index_if_applicable name (sql_column_name fname) rust with
    | none => simp [indexAndAbandonGo, hidx] at hp
    | some idx =>
      cases hrec : indexAndAbandonGo name rest with
      | none => simp [indexAndAbandonGo, hidx, hrec] at hp
      | some q =>
        obtain ⟨defs, children⟩ := q
        simp only [indexAndAbandonGo, hidx, hrec, Option.some.injEq] at hp
        subst hp
        obtain ⟨hch, hdefs⟩ := ih (defs, children) hrec
        simp only at hch hdefs
        constructor
        · show _ ++ children = fkChildrenOf ((fname, rust) :: rest)
          rw [fkChildrenOf_cons, hch]
        · intro d hd
          rcases List.mem_append.mp hd with hd | hd
          · exact add_index_if_applicable_values name (sql_column_name fname) rust idx hidx d hd
          · exact hdefs d hd

theorem add_abandon_children_shape (name : Str) (children : List (Str × Str × Str))
    (l : List SqlDefinition) (h : add_abandon_children name children = some l) :
    ∃ n, l = [⟨n, .abandonChildrenFunction name children⟩] := by
  unfold add_abandon_children at h
  cases hsdn : sql_definition_name ( "DelChilds_".data ++ name) with
  | none => rw [hsdn] at h; cases h
  | some n =>
    rw [hsdn] at h
    obtain rfl : [(⟨n, .abandonChildrenFunction name children⟩ : SqlDefinition)] = l := by
      injection h
    exact ⟨n, rfl⟩

theorem append_index_abandon_spec (name : Str) (fields : List (Str × RustType))
    (out : List SqlDefinition) (h : append_index_and_abandon_function name fields = some out) :
    (∀ d ∈ out, isTableDef d = false) ∧
      out.filterMap (abandonEntries name) =
        (if fkChildrenOf fields = [] then [] else [fkChildrenOf fields]) := by
  unfold append_index_and_abandon_function at h
  cases hgo : indexAndAbandonGo name fields with
  | none => rw [hgo] at h; cases h
  | some q =>
    obtain ⟨defs, children⟩ := q
    simp only [hgo] at h
    obtain ⟨hch, hdefs⟩ := indexAndAbandonGo_spec name fields (defs, children) hgo
    simp only at hch hdefs
    have hdefsTable : ∀ d ∈ defs, isTableDef d = false := by
      intro d hd
      obtain ⟨tb, cl, hv⟩ := hdefs d hd
      simp [isTableDef, hv]
    have hdefsAb : ∀ d ∈ defs, abandonEntries name d = none := by
      intro d hd
      obtain ⟨tb, cl, hv⟩ := hdefs d hd
      simp [abandonEntries, hv]
    by_cases hemp : children.isEmpty = true
    · rw [if_pos hemp] at h
      obtain rfl : defs = out := by injection h
      have hnil : fkChildrenOf fields = [] := by
        rw [← hch]
        exact List.isEmpty_iff.mp hemp
      rw [if_pos hnil]
      exact ⟨hdefsTable, List.filterMap_eq_nil_iff.mpr hdefsAb⟩
    · rw [if_neg hemp] at h
      cases hab : add_abandon_children name children with
      | none => rw [hab] at h; cases h
      | some ab =>
        rw [hab] at h
        obtain rfl : defs ++ ab = out := by injection h
        obtain ⟨n, rfl⟩ := add_abandon_children_shape name children ab hab
        have hne : ¬ fkChildrenOf fields = [] := by
          intro hc
          rw [← hch] at hc
          exact hemp (List.isEmpty_iff.mpr hc)
        rw [if_neg hne]
        constructor
        · intro d hd
          rcases List.mem_append.mp hd with hd | hd
          · exact hdefsTable d hd
          · obtain rfl : (⟨n, .abandonChildrenFunction name children⟩ :
                SqlDefinition) = d := (List.mem_singleton.mp hd).symm
            simp [isTableDef]
        · rw [List.filterMap_append, List.filterMap_eq_nil_iff.mpr hdefsAb]
          simp [abandonEntries, hch]

/-- C4 (amended): a struct or tuple-struct main table always gets the
synthetic auto-incrementing surrogate primary-key column prepended (a
same-named field only gets its own column suffixed) and has exactly one
primary-key column; a data-enum table gets the surrogate key exactly when
no variant is named like the reserved key case-insensitively, and
otherwise has zero primary-key columns.  The original claim's "exactly one
primary-key column in every case" fails on the data enum (see the
counterexample); join tables carry a composite-key constraint instead of a
primary-key column. -/
theorem c4_surrogate_key :
    (∀ (name : Str) (fields : List (Str × RustType)) (out : List SqlDefinition),
       rust_struct_to_sql_table name fields = some out →
       ∃ cols, out.head? = some ⟨name, .table (idSerialCol :: cols) []⟩ ∧
         pkCount (idSerialCol :: cols) = 1) ∧
    (∀ (name : Str) (inner : RustType) (out : List SqlDefinition),
       rust_tuple_struct_to_sql_table name inner = some out →
       out.head? = some ⟨name, .table [idSerialCol] []⟩ ∧ pkCount [idSerialCol] = 1) ∧
    (∀ (name : Str) (variants : List (Str × RustType)) (out : List SqlDefinition),
       rust_data_enum_to_sql_table name variants = some out →
       ∃ cols cs, out.head? = some ⟨name, .table cols cs⟩ ∧
         pkCount cols =
           (if variants.any (fun v => eqIgnoreAsciiCase FOREIGN_KEY_DEFAULT_COLUMN v.1)
            then 0 else 1)) := by
  refine ⟨?_, ?_, ?_⟩
  · intro name fields out h
    unfold rust_struct_to_sql_table at h
    cases hgo : structFieldsGo name fields with
    | none => rw [hgo] at h; cases h
    | some q =>
      obtain ⟨cols, deferred⟩ := q
      rw [hgo] at h
      cases haux : append_index_and_abandon_function name fields with
      | none => rw [haux] at h; cases h
      | some aux =>
        rw [haux] at h
        obtain rfl :
            (⟨name, .table (⟨FOREIGN_KEY_DEFAULT_COLUMN, .serial, true⟩ :: cols) []⟩ :
              SqlDefinition) :: (aux ++ deferred) = out := by injection h
        refine ⟨cols, rfl, ?_⟩
        unfold pkCount
        rw [List.countP_cons_of_pos _ _ (by rfl)]
        rw [List.countP_eq_zero.mpr]
        · intro c hc
          have := structFieldsGo_pk_false name fields (cols, deferred) hgo c hc
          simp [this]
  · intro name inner out h
    unfold rust_tuple_struct_to_sql_table at h
    cases hsdn : sql_definition_name (name ++ "ListEntry".data) with
    | none => rw [hsdn] at h; cases h
    | some listEntryName =>
      simp only [hsdn] at h
      cases hlist : add_list_table name listEntryName inner.as_inner_type.to_sql with
      | none => rw [hlist] at h; cases h
      | some listDefs =>
        rw [hlist] at h
        obtain rfl :
            (⟨name, .table [⟨FOREIGN_KEY_DEFAULT_COLUMN, .serial, true⟩] []⟩ :
              SqlDefinition) :: listDefs = out := by injection h
        exact ⟨rfl, rfl⟩
  · intro name variants out h
    unfold rust_data_enum_to_sql_table at h
    cases haux : append_index_and_abandon_function name variants with
    | none => rw [haux] at h; cases h
    | some aux =>
      simp only [haux] at h
      obtain rfl :
          (⟨name, .table
              ((if variants.any (fun v => eqIgnoreAsciiCase FOREIGN_KEY_DEFAULT_COLUMN v.1)
                then ([] : List Column)
                else [⟨FOREIGN_KEY_DEFAULT_COLUMN, .serial, true⟩]) ++
                variants.map (fun v =>
                  (⟨sql_column_name v.1, v.2.to_sql.nullable, false⟩ : Column)))
              [.oneNotNull (variants.map (fun v => rustModuleName v.1))]⟩ :
            SqlDefinition) :: aux = out := by
        exact (Option.some.injEq _ _).mp h
      refine ⟨_, _, rfl, ?_⟩
      unfold pkCount
      rw [List.countP_append]
      have hvar : List.countP (fun c => c.primary_key)
          (variants.map (fun v =>
            (⟨sql_column_name v.1, v.2.to_sql.nullable, false⟩ : Column))) = 0 := by
        rw [List.countP_eq_zero]
        intro c hc
        obtain ⟨v, _, rfl⟩ := List.mem_map.mp hc
        simp
      rw [hvar]
      by_cases hany : variants.any (fun v => eqIgnoreAsciiCase FOREIGN_KEY_DEFAULT_COLUMN v.1)
      · simp [hany]
      · simp [hany]

theorem c4_surrogate_key_witness :
    (∃ cols,
       (List.head? [(⟨ "S".data, .table [idSerialCol, ⟨ "x".data, .notNull .boolean, false⟩] []⟩ :
          SqlDefinition)]) = some ⟨ "S".data, .table (idSerialCol :: cols) []⟩ ∧
       pkCount (idSerialCol :: cols) = 1) ∧
    (∃ cols cs,
       (List.head? [(⟨ "E".data, .table [⟨ "id_".data, .boolean, false⟩]
            [.oneNotNull [ "id".data]]⟩ : SqlDefinition)]) = some ⟨ "E".data, .table cols cs⟩ ∧
       pkCount cols =
         (if List.any [(( "id".data : Str), RustType.bool)]
              (fun v => eqIgnoreAsciiCase FOREIGN_KEY_DEFAULT_COLUMN v.1)
          then 0 else 1)) :=
  ⟨c4_surrogate_key.1 ( "S".data) [( "x".data, RustType.bool)] _ (by decide),
   c4_surrogate_key.2.2 ( "E".data) [( "id".data, RustType.bool)] _ (by decide)⟩

/-- C4 counterexample: a data enum with a variant literally named `id`
suppresses the surrogate key; the synthesized table has zero primary-key
columns, not exactly one. -/
theorem c4_zero_pk_counterexample :
    rust_data_enum_to_sql_table ( "E".data) [( "id".data, RustType.bool)] =
      some [⟨ "E".data, .table [⟨ "id_".data, .boolean, false⟩]
        [.oneNotNull [ "id".data]]⟩] ∧
      pkCount [⟨ "id_".data, .boolean, false⟩] = 0 := by
  constructor
  · decide
  · decide

/-- C5 (amended): a data enum with N variants produces one table
(auxiliary definitions emitted after it are indexes and abandon functions,
never tables) whose columns are one nullable column per variant — named by
`sql_column_name` of the variant and typed by the mapper with the not-null
wrapper removed — prepended with the surrogate key exactly when no variant
is named like the reserved key case-insensitively, and exactly one
`OneNotNull` constraint listing the variants' `rust_module_name`s.  The
constraint names do not go through `sql_column_name`, so for a variant
named `id` the constraint entry `id` does not match its column `id_` (see
the counterexample); for all other variant names the two coincide. -/
theorem c5_data_enum_shape (name : Str) (variants : List (Str × RustType))
    (out : List SqlDefinition) (h : rust_data_enum_to_sql_table name variants = some out) :
    ∃ tailDefs,
      out = ⟨name, .table
          ((if variants.any (fun v => eqIgnoreAsciiCase FOREIGN_KEY_DEFAULT_COLUMN v.1)
            then [] else [idSerialCol]) ++ variants.map varColOf)
          [.oneNotNull (variants.map (fun v => rustModuleName v.1))]⟩ :: tailDefs ∧
      (∀ d ∈ tailDefs, isTableDef d = false) ∧
      (∀ v ∈ variants, isNotNull (varColOf v).sql = false) := by
  unfold rust_data_enum_to_sql_table at h
  cases haux : append_index_and_abandon_function name variants with
  | none => rw [haux] at h; cases h
  | some aux =>
    simp only [haux] at h
    refine ⟨aux, ?_, ?_, ?_⟩
    · exact ((Option.some.injEq _ _).mp h).symm
    · exact (append_index_abandon_spec name variants aux haux).1
    · intro v _
      exact toSql_nullable_isNotNull_false v.2

theorem c5_data_enum_shape_witness :
    ∃ tailDefs,
      [(⟨ "D".data, .table [idSerialCol, ⟨ "a".data, .boolean, false⟩]
          [.oneNotNull [ "a".data]]⟩ : SqlDefinition)] =
        ⟨ "D".data, .table
            ((if List.any [(( "a".data : Str), RustType.bool)]
                (fun v => eqIgnoreAsciiCase FOREIGN_KEY_DEFAULT_COLUMN v.1)
              then [] else [idSerialCol]) ++
              List.map varColOf [(( "a".data : Str), RustType.bool)])
            [.oneNotNull (List.map (fun v => rustModuleName v.1)
              [(( "a".data : Str), RustType.bool)])]⟩ :: tailDefs ∧
        (∀ d ∈ tailDefs, isTableDef d = false) ∧
        (∀ v ∈ [(( "a".data : Str), RustType.bool)], isNotNull (varColOf v).sql = false) :=
  c5_data_enum_shape ( "D".data) [( "a".data, RustType.bool)] _ (by decide)

/-- C5 counterexample: for a data enum with variants `id` and `x`, the
`OneNotNull` constraint lists `[id, x]`, but the variant columns are named
`[id_, x]`: the constraint's column-name list does not cover the variant
columns (`id_` is missing), contrary to the claim. -/
theorem c5_constraint_counterexample :
    rust_data_enum_to_sql_table ( "E".data)
        [( "id".data, RustType.u8 ⟨0, 255⟩), ( "x".data, RustType.bool)] =
      some [⟨ "E".data,
        .table [⟨ "id_".data, .smallInt, false⟩, ⟨ "x".data, .boolean, false⟩]
          [.oneNotNull [ "id".data, "x".data]]⟩] ∧
      ¬ (( "id_".data : Str) ∈ ([ "id".data, "x".data] : List Str)) := by
  constructor
  · decide
  · decide

theorem index_def_shape (t c : Str) (d : SqlDefinition) (h : index_def t c = some d) :
    ∃ n, d = ⟨n, Sql.index t [c]⟩ := by
  unfold index_def at h
  cases hsdn : sql_definition_name (t ++ "_Index_".data ++ c) with
  | none => rw [hsdn] at h; cases h
  | some n =>
    rw [hsdn] at h
    exact ⟨n, ((Option.some.injEq _ _).mp h).symm⟩

/-- C6 (amended): a main table's abandon-children function is emitted
exactly when the table holds at least one foreign-key column, and records
the `(column, target_table, target_column)` triple of every such column;
a join table's abandon-children function is emitted exactly when its
`value` column is a foreign key, and records only the `value` column —
the `list` parent column is itself a not-null foreign key into the owner
but is never recorded, and a join table whose value is primitive gets no
abandon function at all despite holding that foreign-key column (see the
counterexample). -/
theorem c6_abandon_children :
    (∀ (name : Str) (fields : List (Str × RustType)) (out : List SqlDefinition),
       append_index_and_abandon_function name fields = some out →
       out.filterMap (abandonEntries name) =
         (if fkChildrenOf fields = [] then [] else [fkChildrenOf fields])) ∧
    (∀ (owner entry : Str) (vt : SqlType) (out : List SqlDefinition),
       add_list_table owner entry vt = some out →
       out.head? = some ⟨entry,
           .table [parentColOf owner, ⟨TUPLE_LIST_ENTRY_VALUE_COLUMN, vt, false⟩]
             [.combinedPrimaryKey
               [TUPLE_LIST_ENTRY_PARENT_COLUMN, TUPLE_LIST_ENTRY_VALUE_COLUMN]]⟩ ∧
       out.filterMap (abandonEntries entry) =
         (match vt.nullable with
          | .references ot oc _ _ => [[(TUPLE_LIST_ENTRY_VALUE_COLUMN, ot, oc)]]
          | _ => [])) := by
  constructor
  · intro name fields out h
    exact (append_index_abandon_spec name fields out h).2
  · intro owner entry vt out h
    unfold add_list_table at h
    cases hi1 : index_def entry TUPLE_LIST_ENTRY_PARENT_COLUMN with
    | none => rw [hi1] at h; cases h
    | some i1 =>
      simp only [hi1] at h
      cases hi2 : index_def entry TUPLE_LIST_ENTRY_VALUE_COLUMN with
      | none => rw [hi2] at h; cases h
      | some i2 =>
        simp only [hi2] at h
        obtain ⟨n1, rfl⟩ := index_def_shape entry TUPLE_LIST_ENTRY_PARENT_COLUMN i1 hi1
        obtain ⟨n2, rfl⟩ := index_def_shape entry TUPLE_LIST_ENTRY_VALUE_COLUMN i2 hi2
        cases hnull : vt.nullable with
        | references ot oc od ou =>
          simp only [hnull] at h
          cases hab : add_abandon_children entry
              [(TUPLE_LIST_ENTRY_VALUE_COLUMN, ot, oc)] with
          | none => rw [hab] at h; cases h
          | some ab =>
            simp only [hab] at h
            obtain ⟨n3, rfl⟩ := add_abandon_children_shape entry _ ab hab
            obtain rfl := (Option.some.injEq _ _).mp h
            refine ⟨rfl, ?_⟩
            simp [abandonEntries, List.filterMap_cons, hnull]
        | _ =>
          simp only [hnull] at h
          obtain rfl := (Option.some.injEq _ _).mp h
          refine ⟨rfl, ?_⟩
          simp [abandonEntries, List.filterMap_cons, hnull]

theorem c6_abandon_children_witness :
    (List.filterMap (abandonEntries ( "T".data))
        [(⟨ "T_Index_b".data, Sql.index ( "T".data) [ "b".data]⟩ : SqlDefinition),
         ⟨ "DelChilds_T".data, .abandonChildrenFunction ( "T".data)
            [( "b".data, "C".data, "id".data)]⟩] =
      (if fkChildrenOf [(( "b".data : Str), RustType.complex ( "C".data))] = [] then []
       else [fkChildrenOf [(( "b".data : Str), RustType.complex ( "C".data))]])) ∧
      ((List.head? [(⟨ "WListEntry".data,
          .table [parentColOf ( "W".data),
            ⟨TUPLE_LIST_ENTRY_VALUE_COLUMN, .notNull .text, false⟩]
            [.combinedPrimaryKey
              [TUPLE_LIST_ENTRY_PARENT_COLUMN, TUPLE_LIST_ENTRY_VALUE_COLUMN]]⟩ :
          SqlDefinition),
         ⟨ "WListEntry_Index_list".data, .index ( "WListEntry".data) [ "list".data]⟩,
         ⟨ "WListEntry_Index_value".data, .index ( "WListEntry".data) [ "value".data]⟩]) =
        some ⟨ "WListEntry".data,
          .table [parentColOf ( "W".data),
            ⟨TUPLE_LIST_ENTRY_VALUE_COLUMN, .notNull .text, false⟩]
            [.combinedPrimaryKey
              [TUPLE_LIST_ENTRY_PARENT_COLUMN, TUPLE_LIST_ENTRY_VALUE_COLUMN]]⟩ ∧
       List.filterMap (abandonEntries ( "WListEntry".data))
          [⟨ "WListEntry".data,
            .table [parentColOf ( "W".data),
              ⟨TUPLE_LIST_ENTRY_VALUE_COLUMN, .notNull .text, false⟩]
              [.combinedPrimaryKey
                [TUPLE_LIST_ENTRY_PARENT_COLUMN, TUPLE_LIST_ENTRY_VALUE_COLUMN]]⟩,
           ⟨ "WListEntry_Index_list".data, .index ( "WListEntry".data) [ "list".data]⟩,
           ⟨ "WListEntry_Index_value".data, .index ( "WListEntry".data) [ "value".data]⟩] =
         (match SqlType.nullable (.notNull .text) with
          | .references ot oc _ _ => [[(TUPLE_LIST_ENTRY_VALUE_COLUMN, ot, oc)]]
          | _ => [])) :=
  ⟨c6_abandon_children.1 ( "T".data) [( "b".data, RustType.complex ( "C".data))] _ (by decide),
   c6_abandon_children.2 ( "W".data) ( "WListEntry".data) (.notNull .text) _ (by decide)⟩

/-- C6 counterexample: the join table of a tuple struct wrapping a plain
string holds a foreign-key column (`list`, a not-null reference into the
owner's surrogate key), yet no abandon-children function is emitted for
that table. -/
theorem c6_join_table_counterexample :
    rust_tuple_struct_to_sql_table ( "W".data) RustType.string =
      some [⟨ "W".data, .table [idSerialCol] []⟩,
        ⟨ "WListEntry".data,
          .table [parentColOf ( "W".data),
            ⟨TUPLE_LIST_ENTRY_VALUE_COLUMN, .notNull .text, false⟩]
            [.combinedPrimaryKey
              [TUPLE_LIST_ENTRY_PARENT_COLUMN, TUPLE_LIST_ENTRY_VALUE_COLUMN]]⟩,
        ⟨ "WListEntry_Index_list".data, .index ( "WListEntry".data) [ "list".data]⟩,
        ⟨ "WListEntry_Index_value".data, .index ( "WListEntry".data) [ "value".data]⟩] ∧
      sqlRefTarget (parentColOf ( "W".data)).sql = some ( "W".data) ∧
      List.filterMap (abandonEntries ( "WListEntry".data))
        [⟨ "W".data, .table [idSerialCol] []⟩,
         ⟨ "WListEntry".data,
           .table [parentColOf ( "W".data),
             ⟨TUPLE_LIST_ENTRY_VALUE_COLUMN, .notNull .text, false⟩]
             [.combinedPrimaryKey
               [TUPLE_LIST_ENTRY_PARENT_COLUMN, TUPLE_LIST_ENTRY_VALUE_COLUMN]]⟩,
         ⟨ "WListEntry_Index_list".data, .index ( "WListEntry".data) [ "list".data]⟩,
         ⟨ "WListEntry_Index_value".data, .index ( "WListEntry".data) [ "value".data]⟩] =
        [] := by
  refine ⟨by decide, by decide, by decide⟩

theorem one_le_charUtf8Size (c : Char) : 1 ≤ charUtf8Size c := by
  unfold charUtf8Size
  repeat' split
  all_goals omega

theorem bytesLen_append (a b : Str) : bytesLen (a ++ b) = bytesLen a + bytesLen b := by
  induction a with
  | nil => simp [bytesLen]
  | cons c r ih =>
    show bytesLen (c :: (r ++ b)) = bytesLen (c :: r) + bytesLen b
    simp only [bytesLen, ih, Nat.add_assoc]

theorem length_le_bytesLen (s : Str) : s.length ≤ bytesLen s := by
  induction s with
  | nil => simp [bytesLen]
  | cons c r ih =>
    have := one_le_charUtf8Size c
    simp only [List.length_cons, bytesLen]
    omega

theorem byteDrop_bytesLen (s : Str) :
    ∀ (k : Nat) (t : Str), byteDrop s k = some t → bytesLen t + k = bytesLen s := by
  induction s with
  | nil =>
    intro k t h
    cases k with
    | zero =>
      obtain rfl : ([] : Str) = t := by injection h
      rfl
    | succ k => cases h
  | cons c r ih =>
    intro k t h
    cases k with
    | zero =>
      obtain rfl : c :: r = t := by injection h
      rfl
    | succ k =>
      by_cases hs : charUtf8Size c ≤ Nat.succ k
      · simp only [byteDrop, hs, if_true] at h
        have := ih (Nat.succ k - charUtf8Size c) t h
        simp only [bytesLen]
        omega
      · simp only [byteDrop, hs, if_false] at h
        cases h

theorem mangleGo_spec (full : Str) :
    ∀ (rem : Str) (index : Nat) (result r : Str),
      bytesLen result ≤ 62 →
      (∀ c ∈ result, isAsciiLowercase c = false) →
      mangleGo full rem index result = some r →
      r.length ≤ 63 ∧
        (bytesLen r ≤ 63 ∨
          ((∀ c ∈ r, isAsciiLowercase c = false) ∧
            ∃ p c0, r = p ++ [c0] ∧ bytesLen p ≤ 62)) := by
  intro rem
  induction rem with
  | nil =>
    intro index result r hres hnl h
    obtain rfl : result = r := by injection h
    exact ⟨le_trans (length_le_bytesLen _) (by omega), Or.inl (by omega)⟩
  | cons c rest ih =>
    intro index result r hres hnl h
    by_cases hc : isAsciiLowercase c = true
    · simp only [mangleGo, hc, if_true] at h
      exact ih (index + 1) result r hres hnl h
    · simp only [mangleGo, hc, if_false, TYPENAME_LENGTH_LIMIT_PSQL] at h
      by_cases hfit : bytesLen full - index - 1 + bytesLen (result ++ [c]) ≤ 63
      · rw [if_pos hfit] at h
        cases hdrop : byteDrop full (index + 1) with
        | none => rw [hdrop] at h; cases h
        | some sliced =>
          rw [hdrop] at h
          obtain rfl : result ++ [c] ++ sliced = r := by injection h
          have hbd := byteDrop_bytesLen full (index + 1) sliced hdrop
          have hlen : bytesLen (result ++ [c] ++ sliced) ≤ 63 := by
            rw [bytesLen_append]
            omega
          exact ⟨le_trans (length_le_bytesLen _) hlen, Or.inl hlen⟩
      · rw [if_neg hfit] at h
        by_cases hbreak : 63 ≤ bytesLen (result ++ [c])
        · rw [if_pos hbreak] at h
          obtain rfl : result ++ [c] = r := by injection h
          have hsz : bytesLen (result ++ [c]) = bytesLen result + charUtf8Size c := by
            rw [bytesLen_append]; simp [bytesLen]
          constructor
          · have h1 := length_le_bytesLen result
            simp only [List.length_append, List.length_singleton]
            omega
          · refine Or.inr ⟨?_, result, c, rfl, hres⟩
            intro x hx
            rcases List.mem_append.mp hx with hx | hx
            · exact hnl x hx
            · obtain rfl : x = c := List.mem_singleton.mp hx
              exact Bool.not_eq_true _ ▸ (by simpa using hc)
        · rw [if_neg hbreak] at h
          refine ih (index + 1) (result ++ [c]) r (by omega) ?_ h
          intro x hx
          rcases List.mem_append.mp hx with hx | hx
          · exact hnl x hx
          · obtain rfl : x = c := List.mem_singleton.mp hx
            exact Bool.not_eq_true _ ▸ (by simpa using hc)

theorem mangleGo_oversize (O : Str) (c0 : Char) (p : Str)
    (hO : O = p ++ [c0])
    (hnl : ∀ x ∈ O, isAsciiLowercase x = false)
    (hp : bytesLen p ≤ 62) (hbig : 64 ≤ bytesLen O) :
    ∀ (p2 p1 : Str), p = p1 ++ p2 →
      mangleGo O (p2 ++ [c0]) p1.length p1 = some O := by
  intro p2
  induction p2 with
  | nil =>
    intro p1 hp1
    obtain rfl : p1 = p := by simpa using hp1.symm
    have hc0 : isAsciiLowercase c0 = false := hnl c0 (by rw [hO]; simp)
    have hOp : bytesLen (p1 ++ [c0]) = bytesLen O := by rw [hO]
    simp only [List.nil_append, mangleGo, hc0, Bool.false_eq_true, if_false,
      TYPENAME_LENGTH_LIMIT_PSQL]
    rw [if_neg (by omega), if_pos (by omega), hO.symm]
  | cons hd tl ih =>
    intro p1 hp1
    have hhd : isAsciiLowercase hd = false := by
      refine hnl hd ?_
      rw [hO, hp1]
      simp
    have hpre : bytesLen (p1 ++ [hd]) + bytesLen tl = bytesLen p := by
      rw [hp1, bytesLen_append, bytesLen_append]
      simp only [bytesLen]
      omega
    have hlb : p1.length + 1 ≤ bytesLen (p1 ++ [hd]) := by
      have h1 := length_le_bytesLen p1
      have h2 := one_le_charUtf8Size hd
      rw [bytesLen_append]
      simp only [bytesLen]
      omega
    show mangleGo O ((hd :: tl) ++ [c0]) p1.length p1 = some O
    simp only [List.cons_append, mangleGo, hhd, Bool.false_eq_true, if_false,
      TYPENAME_LENGTH_LIMIT_PSQL]
    rw [if_neg (by omega), if_neg (by omega)]
    have := ih (p1 ++ [hd]) (by rw [hp1]; simp)
    simpa using this

/-- C8: whenever definition-name mangling returns a result (it can panic on
certain non-ASCII names, which is a separate claim), the mangled name never
exceeds the 63-character ceiling in length, and mangling is idempotent:
mangling the mangled name returns it unchanged. -/
theorem c8_mangle_bound_idempotent (name r : Str)
    (h : sql_definition_name name = some r) :
    r.length ≤ TYPENAME_LENGTH_LIMIT_PSQL ∧ sql_definition_name r = some r := by
  unfold sql_definition_name at h ⊢
  by_cases hlen : TYPENAME_LENGTH_LIMIT_PSQL < bytesLen name
  · rw [if_pos hlen] at h
    obtain ⟨hb1, hb2⟩ := mangleGo_spec name name 0 [] r (by simp [bytesLen])
      (by simp) h
    refine ⟨hb1, ?_⟩
    rcases hb2 with hsmall | ⟨hnl, p, c0, rfl, hp⟩
    · rw [if_neg (by simp [TYPENAME_LENGTH_LIMIT_PSQL]; omega)]
    · by_cases h64 : TYPENAME_LENGTH_LIMIT_PSQL < bytesLen (p ++ [c0])
      · rw [if_pos h64]
        refine mangleGo_oversize (p ++ [c0]) c0 p rfl hnl hp ?_ p [] rfl
        simp only [TYPENAME_LENGTH_LIMIT_PSQL] at h64
        omega
      · rw [if_neg h64]
  · rw [if_neg hlen] at h
    obtain rfl : name = r := by injection h
    rw [if_neg hlen]
    simp only [TYPENAME_LENGTH_LIMIT_PSQL] at hlen ⊢
    exact ⟨le_trans (length_le_bytesLen _) (by omega), trivial⟩

theorem c8_mangle_bound_idempotent_witness :
    sql_definition_name
        ( "TheQuickBrownFoxJumpsOverTheLazyDogTheQuickBrownFoxJumpsOverTheLazyDog".data) =
      some ( "TQBFoxJumpsOverTheLazyDogTheQuickBrownFoxJumpsOverTheLazyDog".data) ∧
      List.length ( "TQBFoxJumpsOverTheLazyDogTheQuickBrownFoxJumpsOverTheLazyDog".data) ≤
        TYPENAME_LENGTH_LIMIT_PSQL ∧
      sql_definition_name
          ( "TQBFoxJumpsOverTheLazyDogTheQuickBrownFoxJumpsOverTheLazyDog".data) =
        some ( "TQBFoxJumpsOverTheLazyDogTheQuickBrownFoxJumpsOverTheLazyDog".data) :=
  ⟨by decide,
   c8_mangle_bound_idempotent
     ( "TheQuickBrownFoxJumpsOverTheLazyDogTheQuickBrownFoxJumpsOverTheLazyDog".data)
     ( "TQBFoxJumpsOverTheLazyDogTheQuickBrownFoxJumpsOverTheLazyDog".data)
     (by decide)⟩

theorem toNat_ofNat_of_valid (n : Nat) (h : n < 55296) : (Char.ofNat n).toNat = n := by
  unfold Char.ofNat
  rw [dif_pos (Or.inl h : Nat.isValidChar n)]
  rfl

theorem toNat_asciiToLower_lt (c : Char) (h : c.toNat < 128) :
    (asciiToLower c).toNat < 128 := by
  unfold asciiToLower isAsciiUppercase
  by_cases hu : (65 ≤ c.toNat && c.toNat ≤ 90) = true
  · rw [if_pos hu]
    simp only [Bool.and_eq_true, decide_eq_true_eq] at hu
    rw [toNat_ofNat_of_valid _ (by omega)]
    omega
  · rw [if_neg hu]
    exact h

theorem toNat_asciiToUpper_lt (c : Char) (h : c.toNat < 128) :
    (asciiToUpper c).toNat < 128 := by
  unfold asciiToUpper isAsciiLowercase
  by_cases hu : (97 ≤ c.toNat && c.toNat ≤ 122) = true
  · rw [if_pos hu]
    simp only [Bool.and_eq_true, decide_eq_true_eq] at hu
    rw [toNat_ofNat_of_valid _ (by omega)]
    omega
  · rw [if_neg hu]
    exact h

theorem allAscii_append (a b : Str) (ha : allAscii a) (hb : allAscii b) :
    allAscii (a ++ b) := by
  intro c hc
  rcases List.mem_append.mp hc with h | h
  · exact ha c h
  · exact hb c h

theorem allAscii_rustModuleNameGo :
    ∀ (s : Str) (prev : Option Char), allAscii s → allAscii (rustModuleNameGo prev s) := by
  intro s
  induction s with
  | nil => intro prev _ c hc; cases hc
  | cons c r ih =>
    intro prev h
    have hc : c.toNat < 128 := h c (List.mem_cons_self c r)
    have hr : allAscii r := fun x hx => h x (List.mem_cons_of_mem c hx)
    intro x hx
    simp only [rustModuleNameGo] at hx
    split at hx
    · rcases List.mem_cons.mp hx with rfl | hx2
      · decide
      · rcases List.mem_cons.mp hx2 with rfl | hx3
        · exact toNat_asciiToLower_lt c hc
        · exact ih (some c) hr x hx3
    · rcases List.mem_cons.mp hx with rfl | hx2
      · exact toNat_asciiToLower_lt c hc
      · exact ih (some c) hr x hx2

theorem allAscii_rustModuleName (s : Str) (h : allAscii s) :
    allAscii (rustModuleName s) :=
  allAscii_rustModuleNameGo s none h

theorem allAscii_rustVariantNameGo :
    ∀ (s : Str) (capNext : Bool), allAscii s → allAscii (rustVariantNameGo capNext s) := by
  intro s
  induction s with
  | nil => intro capNext _ c hc; cases hc
  | cons c r ih =>
    intro capNext h
    have hc : c.toNat < 128 := h c (List.mem_cons_self c r)
    have hr : allAscii r := fun x hx => h x (List.mem_cons_of_mem c hx)
    intro x hx
    simp only [rustVariantNameGo] at hx
    split at hx
    · exact ih true hr x hx
    · rcases List.mem_cons.mp hx with rfl | hx2
      · split
        · exact toNat_asciiToUpper_lt c hc
        · exact hc
      · exact ih false hr x hx2

theorem allAscii_rustVariantName (s : Str) (h : allAscii s) :
    allAscii (rustVariantName s) :=
  allAscii_rustVariantNameGo s true h

theorem allAscii_sql_column_name (s : Str) (h : allAscii s) :
    allAscii (sql_column_name s) := by
  unfold sql_column_name
  split
  · exact allAscii_append _ _ (allAscii_rustModuleName s h) (by decide)
  · exact allAscii_rustModuleName s h

theorem charUtf8Size_eq_one (c : Char) (h : c.toNat < 128) : charUtf8Size c = 1 := by
  unfold charUtf8Size
  rw [if_pos h]

theorem byteDrop_ascii_total (s : Str) :
    allAscii s → ∀ k, k ≤ s.length → ∃ t, byteDrop s k = some t ∧ allAscii t := by
  induction s with
  | nil =>
    intro _ k hk
    obtain rfl : k = 0 := Nat.le_zero.mp hk
    exact ⟨[], rfl, fun c hc => by cases hc⟩
  | cons c r ih =>
    intro h k hk
    cases k with
    | zero => exact ⟨c :: r, rfl, h⟩
    | succ k =>
      have hc : c.toNat < 128 := h c (List.mem_cons_self c r)
      have hr : allAscii r := fun x hx => h x (List.mem_cons_of_mem c hx)
      have hsz : charUtf8Size c = 1 := charUtf8Size_eq_one c hc
      obtain ⟨t, ht, hta⟩ := ih hr k (by simpa using hk)
      refine ⟨t, ?_, hta⟩
      simp only [byteDrop, hsz]
      rw [if_pos (by omega)]
      simpa using ht

theorem mangleGo_ascii_total (full : Str) (hfull : allAscii full) :
    ∀ (rem : Str) (index : Nat) (result : Str),
      allAscii rem → allAscii result → index + rem.length = full.length →
      ∃ r, mangleGo full rem index result = some r ∧ allAscii r := by
  intro rem
  induction rem with
  | nil =>
    intro index result _ hres _
    exact ⟨result, rfl, hres⟩
  | cons c rest ih =>
    intro index result hrem hres hinv
    have hc : c.toNat < 128 := hrem c (List.mem_cons_self c rest)
    have hrest : allAscii rest := fun x hx => hrem x (List.mem_cons_of_mem c hx)
    have hres2 : allAscii (result ++ [c]) :=
      allAscii_append _ _ hres (fun x hx => by
        obtain rfl : x = c := List.mem_singleton.mp hx
        exact hc)
    by_cases hlc : isAsciiLowercase c = true
    · simp only [mangleGo, hlc, if_true]
      exact ih (index + 1) result hrest hres (by simp at hinv ⊢; omega)
    · simp only [mangleGo, hlc, if_false]
      by_cases hfit :
          bytesLen full - index - 1 + bytesLen (result ++ [c]) ≤ TYPENAME_LENGTH_LIMIT_PSQL
      · rw [if_pos hfit]
        have hk : index + 1 ≤ full.length := by simp at hinv; omega
        obtain ⟨t, ht, hta⟩ := byteDrop_ascii_total full hfull (index + 1) hk
        rw [ht]
        exact ⟨result ++ [c] ++ t, rfl, allAscii_append _ _ hres2 hta⟩
      · rw [if_neg hfit]
        by_cases hbreak : TYPENAME_LENGTH_LIMIT_PSQL ≤ bytesLen (result ++ [c])
        · rw [if_pos hbreak]
          exact ⟨result ++ [c], rfl, hres2⟩
        · rw [if_neg hbreak]
          exact ih (index + 1) (result ++ [c]) hrest hres2 (by simp at hinv ⊢; omega)

theorem sql_definition_name_ascii (s : Str) (h : allAscii s) :
    ∃ r, sql_definition_name s = some r ∧ allAscii r := by
  unfold sql_definition_name
  by_cases hlen : TYPENAME_LENGTH_LIMIT_PSQL < bytesLen s
  · rw [if_pos hlen]
    exact mangleGo_ascii_total s h s 0 [] h (fun c hc => by cases hc) (by simp)
  · rw [if_neg hlen]
    exact ⟨s, rfl, h⟩

theorem index_def_total (t c : Str) (ht : allAscii t) (hc : allAscii c) :
    ∃ d, index_def t c = some d := by
  unfold index_def
  obtain ⟨r, hr, _⟩ := sql_definition_name_ascii (t ++ "_Index_".data ++ c)
    (allAscii_append _ _ (allAscii_append _ _ ht (by decide)) hc)
  rw [hr]
  exact ⟨_, rfl⟩

theorem add_abandon_children_total (n : Str) (children : List (Str × Str × Str))
    (hn : allAscii n) : ∃ l, add_abandon_children n children = some l := by
  unfold add_abandon_children
  obtain ⟨r, hr, _⟩ := sql_definition_name_ascii ( "DelChilds_".data ++ n)
    (allAscii_append _ _ (by decide) hn)
  rw [hr]
  exact ⟨_, rfl⟩

theorem add_index_if_applicable_total (t c : Str) (rust : RustType)
    (ht : allAscii t) (hc : allAscii c) :
    ∃ l, add_index_if_applicable t c rust = some l := by
  unfold add_index_if_applicable
  cases h : rust.to_sql.nullable
  case references =>
    obtain ⟨d, hd⟩ := index_def_total t c ht hc
    rw [hd]
    exact ⟨_, rfl⟩
  all_goals exact ⟨_, rfl⟩

theorem indexAndAbandonGo_total (name : Str) (hn : allAscii name) :
    ∀ (fields : List (Str × RustType)), (∀ f ∈ fields, allAscii f.1) →
      ∃ p, indexAndAbandonGo name fields = some p := by
  intro fields
  induction fields with
  | nil => exact fun _ => ⟨_, rfl⟩
  | cons f rest ih =>
    intro h
    obtain ⟨fname, rust⟩ := f
    have hf : allAscii fname := h (fname, rust) (List.mem_cons_self _ _)
    have hrest : ∀ x ∈ rest, allAscii x.1 := fun x hx => h x (List.mem_cons_of_mem _ hx)
    obtain ⟨idx, hidx⟩ := add_index_if_applicable_total name (sql_column_name fname) rust hn
      (allAscii_sql_column_name fname hf)
    obtain ⟨⟨defs, children⟩, hq⟩ := ih hrest
    simp only [indexAndAbandonGo, hidx, hq]
    exact ⟨_, rfl⟩

theorem append_index_and_abandon_function_total (name : Str) (hn : allAscii name)
    (fields : List (Str × RustType)) (hf : ∀ f ∈ fields, allAscii f.1) :
    ∃ out, append_index_and_abandon_function name fields = some out := by
  obtain ⟨⟨defs, children⟩, hgo⟩ := indexAndAbandonGo_total name hn fields hf
  simp only [append_index_and_abandon_function, hgo]
  by_cases hemp : children.isEmpty = true
  · rw [if_pos hemp]
    exact ⟨_, rfl⟩
  · rw [if_neg hemp]
    obtain ⟨ab, hab⟩ := add_abandon_children_total name children hn
    rw [hab]
    exact ⟨_, rfl⟩

theorem add_list_table_total (owner entry : Str) (vt : SqlType)
    (hentry : allAscii entry) :
    ∃ out, add_list_table owner entry vt = some out := by
  unfold add_list_table
  obtain ⟨i1, hi1⟩ := index_def_total entry TUPLE_LIST_ENTRY_PARENT_COLUMN hentry (by decide)
  obtain ⟨i2, hi2⟩ := index_def_total entry TUPLE_LIST_ENTRY_VALUE_COLUMN hentry (by decide)
  rw [hi1, hi2]
  cases hnull : vt.nullable
  case references ot oc od ou =>
    obtain ⟨ab, hab⟩ := add_abandon_children_total entry
      [(TUPLE_LIST_ENTRY_VALUE_COLUMN, ot, oc)] hentry
    simp only [hab]
    exact ⟨_, rfl⟩
  all_goals exact ⟨_, rfl⟩

theorem structFieldsGo_total (name : Str) (hn : allAscii name) :
    ∀ (fields : List (Str × RustType)), (∀ f ∈ fields, allAscii f.1) →
      ∃ p, structFieldsGo name fields = some p := by
  intro fields
  induction fields with
  | nil => exact fun _ => ⟨_, rfl⟩
  | cons f rest ih =>
    intro h
    obtain ⟨fname, t⟩ := f
    have hf : allAscii fname := h (fname, t) (List.mem_cons_self _ _)
    have hrest : ∀ x ∈ rest, allAscii x.1 := fun x hx => h x (List.mem_cons_of_mem _ hx)
    obtain ⟨⟨cols, deferred⟩, hq⟩ := ih hrest
    by_cases hv : t.is_vec = true
    · have hln : allAscii (name ++ ['_'] ++ rustVariantName fname) :=
        allAscii_append _ _ (allAscii_append _ _ hn (by decide))
          (allAscii_rustVariantName fname hf)
      obtain ⟨len, hlen, hlenAscii⟩ := sql_definition_name_ascii _ hln
      obtain ⟨listDefs, hlist⟩ :=
        add_list_table_total name len t.as_inner_type.to_sql hlenAscii
      simp only [structFieldsGo, hv, if_true, struct_list_entry_table_name, hlen, hlist, hq]
      exact ⟨_, rfl⟩
    · simp only [structFieldsGo, hv, if_false, hq]
      exact ⟨_, rfl⟩

theorem definition_to_sql_total (name : Str) (r : Rust)
    (hn : allAscii name) (hr : rustNamesAscii r) :
    ∃ defs, definition_to_sql name r = some defs := by
  cases r with
  | structDef fields =>
    obtain ⟨⟨cols, deferred⟩, hgo⟩ := structFieldsGo_total name hn fields hr
    obtain ⟨aux, haux⟩ := append_index_and_abandon_function_total name hn fields hr
    simp only [definition_to_sql, rust_struct_to_sql_table, hgo, haux]
    exact ⟨_, rfl⟩
  | enumDef variants =>
    obtain ⟨g, hg, _⟩ := sql_definition_name_ascii ( "SilentlyPreventAnyDeleteOn".data ++ name)
      (allAscii_append _ _ (by decide) hn)
    simp only [definition_to_sql, rust_enum_to_sql_enum, add_silently_prevent_any_delete, hg]
    exact ⟨_, rfl⟩
  | dataEnum variants =>
    obtain ⟨aux, haux⟩ := append_index_and_abandon_function_total name hn variants hr
    simp only [definition_to_sql, rust_data_enum_to_sql_table, haux]
    exact ⟨_, rfl⟩
  | tupleStruct inner =>
    obtain ⟨len, hlen, hlenAscii⟩ := sql_definition_name_ascii (name ++ "ListEntry".data)
      (allAscii_append _ _ hn (by decide))
    obtain ⟨listDefs, hlist⟩ :=
      add_list_table_total name len inner.as_inner_type.to_sql hlenAscii
    simp only [definition_to_sql, rust_tuple_struct_to_sql_table, hlen, hlist]
    exact ⟨_, rfl⟩

/-- C9 (amended): the synthesis stage of the conversion (everything before
the dependency-ordering pass) is total for every model whose definition
names, struct field names and data-enum variant names are ASCII.  The
original claim fails in two ways: a non-ASCII definition name longer than
the identifier ceiling makes `sql_definition_name` slice at a byte offset
inside a character, which panics (see the counterexample), and the ordering
pass itself diverges on reference cycles (a separate claim). -/
theorem c9_ascii_synthesis_total :
    ∀ (m : List (Str × Rust)),
      (∀ e ∈ m, allAscii e.1 ∧ rustNamesAscii e.2) →
      ∃ defs, synthAll m = some defs := by
  intro m
  induction m with
  | nil => exact fun _ => ⟨[], rfl⟩
  | cons e rest ih =>
    intro h
    obtain ⟨n, r⟩ := e
    obtain ⟨hn, hr⟩ := h (n, r) (List.mem_cons_self _ _)
    have hrest := fun x hx => h x (List.mem_cons_of_mem _ hx)
    obtain ⟨n2, hn2, hn2Ascii⟩ := sql_definition_name_ascii n hn
    obtain ⟨d, hd⟩ := definition_to_sql_total n2 r hn2Ascii hr
    obtain ⟨tail, htail⟩ := ih hrest
    simp only [synthAll, hn2, hd, htail]
    exact ⟨_, rfl⟩

theorem c9_ascii_synthesis_total_witness :
    (∀ e ∈ personCityModel, allAscii e.1 ∧ rustNamesAscii e.2) ∧
      ∃ defs, synthAll personCityModel = some defs :=
  ⟨by decide, c9_ascii_synthesis_total personCityModel (by decide)⟩

/-- C9 counterexample: a definition whose name is sixty `a`s followed by
`Ä` and four `B`s (66 bytes, over the ceiling) makes the name mangler take
the slice `&name[61..]`, which is inside the two-byte `Ä`: the source
panics, so the conversion is not total and does have a failure path. -/
theorem c9_panic_counterexample :
    sql_definition_name nonAsciiLongName = none ∧ synthAll nonAsciiModel = none := by
  constructor
  · decide
  · decide

theorem mget_minsert (m : DepthMap) (k : Str) (v : Nat) (k' : Str) :
    mget (minsert m k v) k' = if k = k' then some v else mget m k' := by
  induction m with
  | nil =>
    simp only [minsert, mget]
  | cons e r ih =>
    obtain ⟨k0, v0⟩ := e
    by_cases h0 : k0 = k
    · subst h0
      by_cases h1 : k0 = k'
      · simp only [minsert, if_pos rfl, mget, if_pos h1]
      · simp only [minsert, if_pos rfl, mget, if_neg h1]
    · by_cases h1 : k0 = k'
      · have hk : ¬ k = k' := fun h => h0 (h1.trans h.symm)
        simp only [minsert, if_neg h0, mget, if_pos h1, if_neg hk]
      · simp only [minsert, if_neg h0, mget, if_neg h1, ih]

theorem mgetD_minsert (m : DepthMap) (k : Str) (v : Nat) (k' : Str) :
    mgetD (minsert m k v) k' = if k = k' then v else mgetD m k' := by
  unfold mgetD
  rw [mget_minsert]
  by_cases h : k = k'
  · rw [if_pos h, if_pos h]; rfl
  · rw [if_neg h, if_neg h]

theorem updateDepth_snd (m : DepthMap) (nm : Str) (d : Nat) :
    (updateDepth m nm d).2 = max d (mgetD m nm) := by
  cases h : mget m nm with
  | none =>
    have hD : mgetD m nm = 0 := by unfold mgetD; rw [h]; rfl
    simp only [updateDepth, h, hD]
    omega
  | some d0 =>
    have hD : mgetD m nm = d0 := by unfold mgetD; rw [h]; rfl
    by_cases h1 : d0 < d
    · simp only [updateDepth, h, if_pos h1, hD]
      omega
    · simp only [updateDepth, h, if_neg h1, hD]
      omega

theorem updateDepth_fst (m : DepthMap) (nm : Str) (d : Nat) (k : Str) :
    mgetD (updateDepth m nm d).1 k =
      if nm = k then max d (mgetD m nm) else mgetD m k := by
  cases h : mget m nm with
  | none =>
    have hD : mgetD m nm = 0 := by unfold mgetD; rw [h]; rfl
    simp only [updateDepth, h]
    rw [mgetD_minsert]
    by_cases hk : nm = k
    · rw [if_pos hk, if_pos hk, hD]
      omega
    · rw [if_neg hk, if_neg hk]
  | some d0 =>
    have hD : mgetD m nm = d0 := by unfold mgetD; rw [h]; rfl
    by_cases h1 : d0 < d
    · simp only [updateDepth, h, if_pos h1]
      rw [mgetD_minsert]
      by_cases hk : nm = k
      · rw [if_pos hk, if_pos hk, hD]
        omega
      · rw [if_neg hk, if_neg hk]
    · simp only [updateDepth, h, if_neg h1]
      by_cases hk : nm = k
      · rw [if_pos hk, ← hk, hD]
        omega
      · rw [if_neg hk]

theorem updateDepth_mono (m : DepthMap) (nm : Str) (d : Nat) :
    depthMono m (updateDepth m nm d).1 := by
  intro k
  rw [updateDepth_fst]
  by_cases hk : nm = k
  · rw [if_pos hk, ← hk]
    omega
  · rw [if_neg hk]

theorem findDefIdx_name (defs : List SqlDefinition) (t : Str) :
    findDefIdx defs t < defs.length → nameAt defs (findDefIdx defs t) = t := by
  induction defs with
  | nil => intro h; cases h
  | cons d r ih =>
    intro _h
    by_cases hd : d.name = t
    · simp only [nameAt, findDefIdx, if_pos hd, List.getD]
      simpa using hd
    · simp only [findDefIdx, if_neg hd, List.length_cons] at _h ⊢
      have := ih (by omega)
      simpa [nameAt, List.getD] using this

theorem findDefIdx_lt (defs : List SqlDefinition) (t : Str) :
    ∀ (j : Nat), j < defs.length → nameAt defs j = t →
      findDefIdx defs t < defs.length := by
  induction defs with
  | nil => intro j hj; cases hj
  | cons d r ih =>
    intro j hj hn
    by_cases hd : d.name = t
    · simp [findDefIdx, hd]
    · cases j with
      | zero =>
        exact absurd (by simpa [nameAt, List.getD] using hn) hd
      | succ j =>
        have := ih j (by simpa using hj) (by simpa [nameAt, List.getD] using hn)
        simp only [findDefIdx, if_neg hd, List.length_cons]
        omega

theorem nameAt_inj (defs : List SqlDefinition)
    (hnodup : (defs.map SqlDefinition.name).Nodup)
    (s i : Nat) (hs : s < defs.length) (hi : i < defs.length)
    (h : nameAt defs s = nameAt defs i) : s = i := by
  have hmap : ∀ (j : Nat) (hj : j < defs.length),
      nameAt defs j = (defs.map SqlDefinition.name).get ⟨j, by simpa using hj⟩ := by
    intro j hj
    simp only [nameAt, List.get_eq_getElem, List.getElem_map]
    rw [List.getD_eq_getElem]
  have hinj := List.nodup_iff_injective_get.mp hnodup
  have heq : (defs.map SqlDefinition.name).get ⟨s, by simpa using hs⟩ =
      (defs.map SqlDefinition.name).get ⟨i, by simpa using hi⟩ := by
    rw [← hmap s hs, ← hmap i hi]
    exact h
  have := hinj heq
  simpa using congrArg Fin.val this

theorem depthMono_trans (m1 m2 m3 : DepthMap)
    (h1 : depthMono m1 m2) (h2 : depthMono m2 m3) : depthMono m1 m3 :=
  fun k => le_trans (h1 k) (h2 k)

theorem sat_lift (defs : List SqlDefinition) (m1 m2 : DepthMap) (s : Nat)
    (hsat : satAt defs m1 s) (hmono : depthMono m1 m2)
    (heq : mgetD m2 (nameAt defs s) = mgetD m1 (nameAt defs s)) :
    satAt defs m2 s := by
  intro t ht hfound
  rw [heq]
  exact le_trans (hsat t ht hfound) (hmono t)

theorem sat_preserve (defs : List SqlDefinition) (m1 m2 : DepthMap) (s : Nat)
    (hs : s < defs.length)
    (hsat : satAt defs m1 s) (hmono : depthMono m1 m2)
    (hrs : raisedSat defs m1 m2) : satAt defs m2 s := by
  by_cases hraised : mgetD m1 (nameAt defs s) < mgetD m2 (nameAt defs s)
  · exact hrs s hs hraised
  · exact sat_lift defs m1 m2 s hsat hmono (le_antisymm (by omega) (hmono _))

theorem rs_comp (defs : List SqlDefinition) (m1 m2 m3 : DepthMap)
    (hmono2 : depthMono m2 m3)
    (h1 : raisedSat defs m1 m2) (h2 : raisedSat defs m2 m3) :
    raisedSat defs m1 m3 := by
  intro s hs hraised
  by_cases hr2 : mgetD m2 (nameAt defs s) < mgetD m3 (nameAt defs s)
  · exact h2 s hs hr2
  · have heq : mgetD m3 (nameAt defs s) = mgetD m2 (nameAt defs s) :=
      le_antisymm (by omega) (hmono2 _)
    have hr1 : mgetD m1 (nameAt defs s) < mgetD m2 (nameAt defs s) := by omega
    exact sat_lift defs m2 m3 s (h1 s hs hr1) hmono2 heq

theorem raisedSat_refl_of_eq (defs : List SqlDefinition) (m m2 : DepthMap)
    (h : ∀ k, mgetD m2 k = mgetD m k) : raisedSat defs m m2 := by
  intro s hs hraised
  rw [h] at hraised
  omega

theorem optFold_spec (defs : List SqlDefinition) (n dd : Nat)
    (hw : WalkSpec defs n) :
    ∀ (ts : List Str) (m m2 : DepthMap),
      optFold (fun acc t =>
        if findDefIdx defs t < defs.length
        then walk defs n (findDefIdx defs t) acc dd else some acc) ts m = some m2 →
      depthMono m m2 ∧ raisedSat defs m m2 ∧
        ∀ t ∈ ts, findDefIdx defs t < defs.length → dd ≤ mgetD m2 t := by
  intro ts
  induction ts with
  | nil =>
    intro m m2 h
    obtain rfl : m = m2 := by injection h
    exact ⟨fun k => le_refl _, raisedSat_refl_of_eq defs m m (fun k => rfl), by simp⟩
  | cons t ts ih =>
    intro m m2 h
    by_cases hf : findDefIdx defs t < defs.length
    · simp only [optFold, if_pos hf] at h
      cases hw1 : walk defs n (findDefIdx defs t) m dd with
      | none => rw [hw1] at h; cases h
      | some mm =>
        simp only [hw1] at h
        obtain ⟨mono1, rs1, hbound1, _⟩ := hw (findDefIdx defs t) m dd mm hf hw1
        obtain ⟨mono2, rs2, htargets⟩ := ih mm m2 h
        have hname := findDefIdx_name defs t hf
        refine ⟨depthMono_trans _ _ _ mono1 mono2,
          rs_comp defs m mm m2 mono2 rs1 rs2, ?_⟩
        intro t' ht' hf'
        rcases List.mem_cons.mp ht' with rfl | ht'
        · rw [hname] at hbound1
          have := mono2 t'
          omega
        · exact htargets t' ht' hf'
    · simp only [optFold, if_neg hf] at h
      obtain ⟨mono2, rs2, htargets⟩ := ih m m2 h
      refine ⟨mono2, rs2, ?_⟩
      intro t' ht' hf'
      rcases List.mem_cons.mp ht' with rfl | ht'
      · exact absurd hf' hf
      · exact htargets t' ht' hf'

theorem walk_spec (defs : List SqlDefinition)
    (hnodup : (defs.map SqlDefinition.name).Nodup) :
    ∀ n, WalkSpec defs n := by
  intro n
  induction n with
  | zero => intro i m d m2 hi hw; cases hw
  | succ n ih =>
    intro i m d m2 hi hw
    simp only [walk] at hw
    have hspec := optFold_spec defs n ((updateDepth m (nameAt defs i) d).2 + 1) ih
      (defChildren (defs.getD i dummyDef)) (updateDepth m (nameAt defs i) d).1 m2 hw
    obtain ⟨mono2, rs2, htargets⟩ := hspec
    have hdc := updateDepth_snd m (nameAt defs i) d
    have hm1 := updateDepth_fst m (nameAt defs i) d
    have mono1 : depthMono m (updateDepth m (nameAt defs i) d).1 :=
      updateDepth_mono m (nameAt defs i) d
    have hm1nm : mgetD (updateDepth m (nameAt defs i) d).1 (nameAt defs i) =
        max d (mgetD m (nameAt defs i)) := by
      rw [hm1, if_pos rfl]
    have hS2 : max d (mgetD m (nameAt defs i)) ≤ mgetD m2 (nameAt defs i) := by
      rw [← hm1nm]
      exact mono2 _
    have hsatI : satAt defs m2 i := by
      by_cases hr : mgetD (updateDepth m (nameAt defs i) d).1 (nameAt defs i) <
          mgetD m2 (nameAt defs i)
      · exact rs2 i hi hr
      · have heq : mgetD m2 (nameAt defs i) =
            mgetD (updateDepth m (nameAt defs i) d).1 (nameAt defs i) :=
          le_antisymm (by omega) (mono2 _)
        intro t ht hfound
        have hbd := htargets t ht hfound
        rw [heq, hm1nm]
        omega
    refine ⟨depthMono_trans _ _ _ mono1 mono2, ?_, hS2, hsatI⟩
    intro s hs hraised
    by_cases hr2 : mgetD (updateDepth m (nameAt defs i) d).1 (nameAt defs s) <
        mgetD m2 (nameAt defs s)
    · exact rs2 s hs hr2
    · have heq : mgetD m2 (nameAt defs s) =
          mgetD (updateDepth m (nameAt defs i) d).1 (nameAt defs s) :=
        le_antisymm (by omega) (mono2 _)
      have hr1 : mgetD m (nameAt defs s) <
          mgetD (updateDepth m (nameAt defs i) d).1 (nameAt defs s) := by omega
      rw [hm1] at hr1
      by_cases hkey : nameAt defs i = nameAt defs s
      · have hsi : s = i := nameAt_inj defs hnodup s i hs hi hkey.symm
        rw [hsi]
        exact hsatI
      · rw [if_neg hkey] at hr1
        omega

theorem walkRoots_spec (defs : List SqlDefinition)
    (hnodup : (defs.map SqlDefinition.name).Nodup) (fuel : Nat) :
    ∀ (rs : List Nat) (m m2 : DepthMap),
      (∀ i ∈ rs, i < defs.length) →
      walkRoots defs fuel rs m = some m2 →
      depthMono m m2 ∧ raisedSat defs m m2 ∧ ∀ i ∈ rs, satAt defs m2 i := by
  intro rs
  induction rs with
  | nil =>
    intro m m2 _ h
    obtain rfl : m = m2 := by injection h
    exact ⟨fun k => le_refl _, raisedSat_refl_of_eq defs m m (fun k => rfl), by simp⟩
  | cons i rest ih =>
    intro m m2 hmem h
    have hi : i < defs.length := hmem i (List.mem_cons_self _ _)
    cases hw1 : walk defs fuel i m 0 with
    | none => simp only [walkRoots, hw1] at h; cases h
    | some mm =>
      simp only [walkRoots, hw1] at h
      obtain ⟨mono1, rs1, _, hsat1⟩ := walk_spec defs hnodup fuel i m 0 mm hi hw1
      obtain ⟨mono2, rs2, hsats⟩ :=
        ih mm m2 (fun j hj => hmem j (List.mem_cons_of_mem _ hj)) h
      refine ⟨depthMono_trans _ _ _ mono1 mono2,
        rs_comp defs m mm m2 mono2 rs1 rs2, ?_⟩
      intro j hj
      rcases List.mem_cons.mp hj with rfl | hj
      · exact sat_preserve defs mm m2 j hi hsat1 mono2 rs2
      · exact hsats j hj

theorem computeDepths_satAt (fuel : Nat) (defs : List SqlDefinition) (F : DepthMap)
    (hnodup : (defs.map SqlDefinition.name).Nodup)
    (hF : computeDepths fuel defs = some F) :
    ∀ i, i < defs.length → satAt defs F i := by
  intro i hi
  have hspec := walkRoots_spec defs hnodup fuel (List.range defs.length) [] F
    (fun j hj => List.mem_range.mp hj) hF
  exact hspec.2.2 i (List.mem_range.mpr hi)

theorem sortDefs_sorted (m : DepthMap) (defs : List SqlDefinition) :
    List.Sorted (fun a b => sortKey m a ≤ sortKey m b) (sortDefs m defs) := by
  haveI : IsTotal SqlDefinition (fun a b => sortKey m a ≤ sortKey m b) :=
    ⟨fun a b => le_total _ _⟩
  haveI : IsTrans SqlDefinition (fun a b => sortKey m a ≤ sortKey m b) :=
    ⟨fun a b c h1 h2 => le_trans h1 h2⟩
  exact List.sorted_insertionSort _ defs

theorem holdsFkInto_children (d : SqlDefinition) (t : Str) (h : holdsFkInto d t) :
    t ∈ defChildren d := by
  unfold holdsFkInto at h
  obtain ⟨nm, v⟩ := d
  cases v with
  | table cols cs =>
    obtain ⟨c, hc, hkey⟩ := h
    exact List.mem_filterMap.mpr ⟨c, hc, hkey⟩
  | enum vs => exact h.elim
  | index tb cl => exact h.elim
  | abandonChildrenFunction tb ch => exact h.elim
  | silentlyPreventAnyDelete tb => exact h.elim

/-- C1 (amended): whenever the depth computation of the ordering pass
succeeds on a converted definition list with pairwise-distinct names, a
table `A` holding a foreign-key column referencing `B` gets
`depth(B) ≥ depth(A) + 1` — exactly as claimed — but in the final output,
which is sorted by descending depth, `B` is therefore emitted strictly
BEFORE `A`, not after as the claim states (the referenced table must exist
before the referencing one).  The `usize` bound on `B`'s depth mirrors the
machine arithmetic of the sort key. -/
theorem c1_depth_and_emission_order
    (fuel : Nat) (defs : List SqlDefinition) (F : DepthMap)
    (a b : Nat) (ha : a < defs.length) (hb : b < defs.length)
    (hnodup : (defs.map SqlDefinition.name).Nodup)
    (hF : computeDepths fuel defs = some F)
    (hedge : holdsFkInto (defs.getD a dummyDef) (nameAt defs b))
    (hbound : mgetD F (nameAt defs b) ≤ USIZE_MAX) :
    mgetD F (nameAt defs a) + 1 ≤ mgetD F (nameAt defs b) ∧
      ∀ (i j : Nat) (hi : i < (sortDefs F defs).length)
        (hj : j < (sortDefs F defs).length),
        ((sortDefs F defs).get ⟨i, hi⟩).name = nameAt defs b →
        ((sortDefs F defs).get ⟨j, hj⟩).name = nameAt defs a →
        i < j := by
  have hdepth : mgetD F (nameAt defs a) + 1 ≤ mgetD F (nameAt defs b) := by
    have hsat := computeDepths_satAt fuel defs F hnodup hF a ha
    exact hsat (nameAt defs b) (holdsFkInto_children _ _ hedge)
      (findDefIdx_lt defs (nameAt defs b) b hb rfl)
  refine ⟨hdepth, ?_⟩
  intro i j hi hj hni hnj
  by_cases hij : i < j
  · exact hij
  · exfalso
    rcases Nat.lt_or_ge j i with hji | hji
    · have hrel := (sortDefs_sorted F defs).rel_get_of_lt
        (show (⟨j, hj⟩ : Fin (sortDefs F defs).length) < ⟨i, hi⟩ from
          Fin.mk_lt_mk.mpr hji)
      simp only [sortKey] at hrel
      rw [hni, hnj] at hrel
      omega
    · have hji2 : j = i := by omega
      subst hji2
      rw [hni] at hnj
      have hab : b = a := by
        refine nameAt_inj defs hnodup b a hb ha ?_
        exact hnj
      rw [hab] at hdepth
      omega

theorem c1_depth_and_emission_order_witness :
    mgetD personCityDepths (nameAt personCityDefs 0) + 1 ≤
        mgetD personCityDepths (nameAt personCityDefs 3) ∧
      ∀ (i j : Nat) (hi : i < (sortDefs personCityDepths personCityDefs).length)
        (hj : j < (sortDefs personCityDepths personCityDefs).length),
        ((sortDefs personCityDepths personCityDefs).get ⟨i, hi⟩).name =
          nameAt personCityDefs 3 →
        ((sortDefs personCityDepths personCityDefs).get ⟨j, hj⟩).name =
          nameAt personCityDefs 0 →
        i < j :=
  c1_depth_and_emission_order 20 personCityDefs personCityDepths 0 3
    (by decide) (by decide) (by decide) (by decide) (by decide) (by decide)

/-- C1 counterexample: in the converted output of a model where the table
`Person` holds a foreign key into `City`, the referenced definition `City`
is emitted at position 0, strictly BEFORE `Person` at position 1 — not
later, as the claim states. -/
theorem c1_emission_counterexample :
    convert_rust_to_sql 20 personCityModel = some
      [⟨ "City".data, .enum [ "Esslingen".data, "Stuttgart".data]⟩,
       ⟨ "Person".data,
         .table
           [idSerialCol,
            ⟨ "name".data, .notNull .text, false⟩,
            ⟨ "birth".data,
             .notNull (.references ( "City".data) ( "id".data)
               (some .cascade) (some .cascade)),
             false⟩]
           []⟩,
       ⟨ "Person_Index_birth".data, .index ( "Person".data) [ "birth".data]⟩,
       ⟨ "DelChilds_Person".data,
         .abandonChildrenFunction ( "Person".data)
           [( "birth".data, "City".data, "id".data)]⟩,
       ⟨ "SilentlyPreventAnyDeleteOnCity".data,
         .silentlyPreventAnyDelete ( "City".data)⟩] ∧
      holdsFkInto (personCityDefs.getD 0 dummyDef) ( "City".data) := by
  constructor
  · decide
  · decide

end Asn1rsSql
